import Mathlib

/-!
Shallow embedding of the line-annotation tracking and range-consolidation
engine of the EXT_LANDING_page repository, together with proofs checking the
natural-language specification's claims against the code.

Sources embedded here:
* `src/components/Marker.js` — the `Marker` class: `show` (merge-on-insert),
  `updateMarkerRange`, `consolidateAllMarkers`, `adjustByContent`.
* `src/hooks/useRealTimeCollaboration.js` — `detectRangeInsertion`,
  `detectRangeEdit`, `createChangeBlocks`, `mergeCode`.
* `src/components/ChangeBlock.js` — `create`, `remove`, `split`,
  `adjustByContent`.
* `src/components/GutterIcons.js` — `adjustByContent`.

Modelling conventions:
* JavaScript `Map` objects are modelled as association lists in insertion
  order.  `Map.set` replaces an existing entry with the same key in place and
  otherwise appends; `Map.delete` removes the entry with the key;
  `Map.values()` iterates in insertion order.  This is exactly the ECMAScript
  semantics.
* Line numbers and timestamps are JavaScript numbers used only integrally, so
  they are modelled as `Int`.
* `content.split('\n')` and `lines.join('\n')` are modelled by character-level
  splitting and joining on `'\n'`, which is the ECMAScript behaviour of
  `split`/`join` with a one-character separator (in particular
  `"".split('\n') = [""]`).
* `Date.now()` is passed in as an explicit `now : Int` parameter; the one or
  two calls a single JS function body makes are modelled as returning the same
  instant.
* DOM-only effects (element creation, pixel positioning, CSS classes, gutter
  icon rendering) are outside the engine per the specification's scope and are
  not part of the state; the guards that depend only on DOM presence
  (`if (!editor) return`) are taken to be satisfied.
-/

/-! ## Character-level model of `split('\n')` and `join('\n')` -/

/-- Splitting a character list at every newline, as `String.prototype.split`
with separator `"\n"` does (the empty string yields one empty piece). -/
def splitNlChars : List Char → List (List Char)
  | [] => [[]]
  | c :: cs =>
    let r := splitNlChars cs
    if c = '\n' then [] :: r
    else
      match r with
      | [] => [[c]]
      | p :: ps => (c :: p) :: ps

/-- Model of `content.split('\n')` on strings. -/
def splitNl (s : String) : List String :=
  (splitNlChars s.data).map (fun cs => String.mk cs)

/-- Joining pieces with a newline between them, as `Array.prototype.join('\n')`
does. -/
def joinNlChars : List (List Char) → List Char
  | [] => []
  | [p] => p
  | p :: q :: ps => p ++ '\n' :: joinNlChars (q :: ps)

/-- Model of `lines.join('\n')` on strings. -/
def joinNl (lines : List String) : String :=
  String.mk (joinNlChars (lines.map String.data))

/-- Model of JavaScript `lines[i] || ''`: indexing that yields `""` out of
bounds (for `undefined`) and keeps `""` for an empty line. -/
def jsGetD (lines : List String) (i : Int) : String :=
  if 0 ≤ i then lines.getD i.toNat "" else ""

/-- Model of JavaScript `lines[i]` where a later strict-equality comparison
with a string makes `undefined` behave like "no value". -/
def jsGet? (lines : List String) (i : Int) : Option String :=
  if 0 ≤ i then lines.get? i.toNat else none

/-- Model of `array.findIndex(line => line === content)`: index of the first
exact match, or `-1`. -/
def jsFindIndexEq (content : String) (lines : List String) : Int :=
  match lines.findIdx? (fun line => line = content) with
  | some i => (i : Int)
  | none => -1

/-! ## Sorting

JavaScript's `Array.prototype.sort` with comparator `(a, b) => key a - key b`
is a stable sort by `key`; a stable insertion sort models it. -/

/-- Stable insertion of `x` in front of the first element with a strictly
larger key. -/
def insertByKey {α : Type} (key : α → Int) (x : α) : List α → List α
  | [] => [x]
  | y :: ys => if key x ≤ key y then x :: y :: ys else y :: insertByKey key x ys

/-- Stable sort by an integer key, modelling `arr.sort((a, b) => key a - key b)`. -/
def sortByKey {α : Type} (key : α → Int) : List α → List α
  | [] => []
  | x :: xs => insertByKey key x (sortByKey key xs)

/-! ## JavaScript `Map` as an association list in insertion order -/

/-- Model of `Map.prototype.set`: replace in place if the key is present,
otherwise append. -/
def assocSet {κ α : Type} [DecidableEq κ] (k : κ) (v : α) :
    List (κ × α) → List (κ × α)
  | [] => [(k, v)]
  | (k', v') :: rest =>
    if k' = k then (k, v) :: rest else (k', v') :: assocSet k v rest

/-- Model of `Map.prototype.get`. -/
def assocGet? {κ α : Type} [DecidableEq κ] (k : κ) : List (κ × α) → Option α
  | [] => none
  | (k', v') :: rest => if k' = k then some v' else assocGet? k rest

/-- Model of `Map.prototype.delete`. -/
def assocDelete {κ α : Type} [DecidableEq κ] (k : κ) :
    List (κ × α) → List (κ × α)
  | [] => []
  | (k', v') :: rest => if k' = k then rest else (k', v') :: assocDelete k rest

/-! ## Marker.js: persistent markers (annotation ranges)

A persistent marker element carries `dataset.line`, `dataset.endLine`,
`dataset.rawUser` and `dataset.changeType`; `persistentMarkers` is a `Map`
from the start line to the element, and every operation keeps the map key
equal to the element's `dataset.line`.  The map is therefore modelled as a
list of `Marker` records in insertion order, keyed by the `line` field. -/

/-- One persistent marker: an annotation range with its author and change
kind, mirroring the element's `dataset` fields. -/
structure Marker where
  line : Int
  endLine : Int
  rawUser : String
  changeType : String
  deriving DecidableEq, Repr

namespace Marker

/-- `persistentMarkers.set(m.line, m)` on the insertion-ordered map. -/
def mapSet (m : Marker) : List Marker → List Marker
  | [] => [m]
  | x :: xs => if x.line = m.line then m :: xs else x :: mapSet m xs

/-- `persistentMarkers.delete(k)` on the insertion-ordered map. -/
def mapDelete (k : Int) : List Marker → List Marker
  | [] => []
  | x :: xs => if x.line = k then xs else x :: mapDelete k xs

/-- `Marker.updateMarkerRange(marker, newStart, newEnd)`: the map entry at the
old start key is deleted, the element's range data is rewritten, and it is
re-inserted under the new start key (label and pixel updates are DOM-only). -/
def updateMarkerRange (m : Marker) (newStart newEnd : Int)
    (st : List Marker) : List Marker :=
  mapSet { m with line := newStart, endLine := newEnd } (mapDelete m.line st)

/-- The loop of `Marker.consolidateAllMarkers` over the start-line-sorted
snapshot array: whenever the current and next markers have the same user and
`currEnd + 1 === nextStart`, the next marker is deleted from the map, the
current one is extended to its end via `updateMarkerRange`, and the loop
re-checks the extended marker against the following one (`i--` plus
`splice`). -/
def consLoopGo (a : Marker) : List Marker → List Marker → List Marker
  | [], st => st
  | b :: rest, st =>
    if a.rawUser = b.rawUser ∧ a.endLine + 1 = b.line then
      consLoopGo { a with endLine := b.endLine } rest
        (updateMarkerRange a a.line b.endLine (mapDelete b.line st))
    else consLoopGo b rest st

/-- The loop of `Marker.consolidateAllMarkers` over the whole sorted snapshot
array (`consLoopGo` carries the current marker). -/
def consLoop : List Marker → List Marker → List Marker
  | [], st => st
  | a :: rest, st => consLoopGo a rest st

/-- `Marker.consolidateAllMarkers()`: sort a snapshot of all persistent
markers by start line and run the pairwise-adjacent merge loop over it. -/
def consolidateAllMarkers (st : List Marker) : List Marker :=
  let markers := sortByKey (fun m => m.line) st
  if markers.length < 2 then st
  else consLoop markers st

/-- The merge-candidate search inside `Marker.show`: walk the map values in
insertion order and, for the first marker of the same user and change type
matching one of the three cases (bottom-extend, then top-extend, then
overlap), return it together with the new range bounds the matching case
assigns. -/
def findMerge (userName changeType : String) (currentStart currentEnd : Int) :
    List Marker → Option (Marker × Int × Int)
  | [] => none
  | ex :: rest =>
    if ex.rawUser = userName ∧ ex.changeType = changeType then
      if ex.endLine + 1 = currentStart then some (ex, ex.line, currentEnd)
      else if currentEnd + 1 = ex.line then some (ex, currentStart, ex.endLine)
      else if (currentStart ≥ ex.line ∧ currentStart ≤ ex.endLine) ∨
              (currentEnd ≥ ex.line ∧ currentEnd ≤ ex.endLine) then
        some (ex, min ex.line currentStart, max ex.endLine currentEnd)
      else findMerge userName changeType currentStart currentEnd rest
    else findMerge userName changeType currentStart currentEnd rest

/-- Model of `endLine ? endLine : lineNumber` (JavaScript falsiness: `null`
and `0` both fall back to `lineNumber`). -/
def resolveEnd (lineNumber : Int) : Option Int → Int
  | none => lineNumber
  | some e => if e = 0 then lineNumber else e

/-- `Marker.show(lineNumber, userName, persistent, changeType, endLine)` on
the marker map (named `showMarker` because `show` is a Lean keyword).  Lines
below 1 are rejected; if a same-user same-kind marker matches an adjacency
case, that marker is updated and the full consolidation pass runs; otherwise
a new marker element is created and set under its start-line key. -/
def showMarker (st : List Marker) (lineNumber : Int) (userName : String)
    (changeType : String) (endLine : Option Int) : List Marker :=
  if lineNumber < 1 then st
  else
    let currentStart := lineNumber
    let currentEnd := resolveEnd lineNumber endLine
    match findMerge userName changeType currentStart currentEnd st with
    | some (ex, newStart, newEnd) =>
        consolidateAllMarkers (updateMarkerRange ex newStart newEnd st)
    | none => mapSet ⟨currentStart, currentEnd, userName, changeType⟩ st

/-- `Marker.adjustByContent(oldLines, newLines)`: the code only calls
`updatePosition()` (pixel refresh); the marker map is left untouched. -/
def adjustByContent (st : List Marker) (_oldLines _newLines : List String) :
    List Marker := st

/-- Representation invariant of the `persistentMarkers` map: keys (start
lines) are pairwise distinct.  Every state reachable through the `Map` API
satisfies this. -/
def KeysNodup (st : List Marker) : Prop :=
  st.Pairwise (fun a b => a.line ≠ b.line)

/-- Author `w` has line `x` covered by some marker of the state. -/
def covers (st : List Marker) (w : String) (x : Int) : Prop :=
  ∃ m, m ∈ st ∧ m.rawUser = w ∧ m.line ≤ x ∧ x ≤ m.endLine

/-- The candidate range `[cs, ce]` matches one of `Marker.show`'s three
adjacency cases against the existing marker `m`: bottom-extend, top-extend,
or overlap. -/
def mergeCandidateCase (m : Marker) (cs ce : Int) : Prop :=
  m.endLine + 1 = cs ∨ ce + 1 = m.line ∨
    ((cs ≥ m.line ∧ cs ≤ m.endLine) ∨ (ce ≥ m.line ∧ ce ≤ m.endLine))

instance (m : Marker) (cs ce : Int) : Decidable (mergeCandidateCase m cs ce) := by
  unfold mergeCandidateCase; infer_instance

instance (st : List Marker) : Decidable (KeysNodup st) := by
  unfold KeysNodup; infer_instance

instance (st : List Marker) (w : String) (x : Int) : Decidable (covers st w x) := by
  unfold covers
  exact List.decidableBEx (fun m => m.rawUser = w ∧ m.line ≤ x ∧ x ≤ m.endLine) st

end Marker

/-! ## useRealTimeCollaboration.js: burst detection

`recentAdditions` / `recentEdits` entries are `{line, content, timestamp}`;
`changesA`/`changesB` map a line number to the change data recorded for it;
`reservationsA`/`reservationsB` map a line number to `{userName, timestamp}`. -/

/-- One entry of a recent-additions / recent-edits window. -/
structure Event where
  line : Int
  content : String
  timestamp : Int
  deriving DecidableEq, Repr, Inhabited

/-- One tracked change (`changeData` in the hook). -/
structure ChangeData where
  changeType : String
  userName : String
  lineNumber : Int
  lineContent : String
  timestamp : Int
  deriving DecidableEq, Repr

/-- One edit reservation (`reserveTerritory` entry). -/
structure Reservation where
  userName : String
  timestamp : Int
  deriving DecidableEq, Repr

/-- Pruning a window to entries less than 500ms old
(`recentX.filter(a => now - a.timestamp < 500)`). -/
def pruneWindow (events : List Event) (now : Int) : List Event :=
  events.filter (fun e => now - e.timestamp < 500)

/-- The walk collecting the maximal consecutive run: keep taking entries while
each one's line is exactly one more than the previous entry's. -/
def collectRunGo (prev : Event) : List Event → List Event
  | [] => []
  | e :: rest => if e.line = prev.line + 1 then e :: collectRunGo e rest else []

/-- The `consecutive` array of `detectRangeInsertion` / `detectRangeEdit`:
the first retained entry plus the maximal run of successive `+1` lines. -/
def collectRun : List Event → List Event
  | [] => []
  | e :: rest => e :: collectRunGo e rest

/-- `recent[0].line` (the loop's initial `rangeStart`). -/
def headLine : List Event → Int
  | [] => 0
  | e :: _ => e.line

/-- The loop's final `rangeEnd`: the last consecutive entry's line, or the
initial `rangeStart` if the run never advanced. -/
def runEndLine (rangeStart : Int) (consecutive : List Event) : Int :=
  match consecutive.getLast? with
  | some e => e.line
  | none => rangeStart

/-- `for (let line = s; line <= e; line++)` iteration ranges. -/
def intRange (s e : Int) : List Int :=
  (List.range (e - s + 1).toNat).map (fun i => s + (i : Int))

/-- `reserveTerritory(line, userName, reservations)` applied to every line of
the range. -/
def reserveLines (s e : Int) (userName : String) (now : Int)
    (reservations : List (Int × Reservation)) : List (Int × Reservation) :=
  (intRange s e).foldl (fun r l => assocSet l ⟨userName, now⟩ r) reservations

/-- The state a detection call returns and/or mutates: the range result
(`some (startLine, endLine)` iff `isRange`), the retained window, and the
updated changes map, reservations map and marker map. -/
structure DetectOutcome where
  rangeResult : Option (Int × Int)
  recent : List Event
  changes : List (Int × ChangeData)
  reservations : List (Int × Reservation)
  markers : List Marker
  deriving DecidableEq, Repr

/-- `detectRangeInsertion` of the collaboration hook.  The triggering line is
appended to the window, the window is pruned to 500ms, and a maximal
consecutive run of at least two entries is reported as one `added` range —
but only when the insertion falls between existing baseline lines
(`isInsertionBetween` and `rangeStart <= baselineLines.length + 1`);
otherwise the call reports a single-line result and retains the pruned
window.  Gutter-icon rendering is DOM-only and not part of the state. -/
def detectRangeInsertion (currentLine : Int) (content baselineContent : String)
    (_previousLineCount : Int) (recentAdditions : List Event)
    (userName : String) (markers : List Marker)
    (changes : List (Int × ChangeData))
    (reservations : List (Int × Reservation)) (now : Int) : DetectOutcome :=
  let currentLines := splitNl content
  let baselineLines := if baselineContent = "" then [] else splitNl baselineContent
  let isInsertionBetween :=
    baselineContent ≠ "" ∧ 0 < baselineLines.length ∧
      currentLine ≤ (baselineLines.length : Int)
  let addition : Event := ⟨currentLine, jsGetD currentLines (currentLine - 1), now⟩
  let recent := pruneWindow (recentAdditions ++ [addition]) now
  if 1 < recent.length then
    let sorted := sortByKey (fun e => e.line) recent
    let rangeStart := headLine sorted
    let consecutive := collectRun sorted
    let rangeEnd := runEndLine rangeStart consecutive
    if 2 ≤ consecutive.length ∧ rangeStart < rangeEnd then
      if isInsertionBetween ∧ rangeStart ≤ (baselineLines.length : Int) + 1 then
        let reservations' := reserveLines rangeStart rangeEnd userName now reservations
        let changes' := consecutive.foldl
          (fun ch a =>
            assocSet a.line ⟨"added", userName, a.line, a.content, a.timestamp⟩ ch)
          changes
        let markers' := Marker.showMarker markers rangeStart userName "added" (some rangeEnd)
        ⟨some (rangeStart, rangeEnd), [], changes', reservations', markers'⟩
      else ⟨none, recent, changes, reservations, markers⟩
    else ⟨none, recent, changes, reservations, markers⟩
  else ⟨none, recent, changes, reservations, markers⟩

/-- `detectRangeEdit` of the collaboration hook.  Like the insertion variant
but without any baseline gate: a maximal consecutive run of at least two
entries is always reported as one `edited` range; the individual markers
covering the range are removed from the marker map before the range marker is
shown. -/
def detectRangeEdit (currentLine : Int) (content _baselineContent : String)
    (_previousLineCount : Int) (recentEdits : List Event) (userName : String)
    (markers : List Marker) (changes : List (Int × ChangeData))
    (reservations : List (Int × Reservation)) (now : Int) : DetectOutcome :=
  let currentLines := splitNl content
  let edit : Event := ⟨currentLine, jsGetD currentLines (currentLine - 1), now⟩
  let recent := pruneWindow (recentEdits ++ [edit]) now
  if 1 < recent.length then
    let sorted := sortByKey (fun e => e.line) recent
    let rangeStart := headLine sorted
    let consecutive := collectRun sorted
    let rangeEnd := runEndLine rangeStart consecutive
    if 2 ≤ consecutive.length ∧ rangeStart < rangeEnd then
      let reservations' := reserveLines rangeStart rangeEnd userName now reservations
      let changes' := consecutive.foldl
        (fun ch e =>
          assocSet e.line ⟨"edited", userName, e.line, e.content, e.timestamp⟩ ch)
        changes
      let markers1 :=
        (intRange rangeStart rangeEnd).foldl (fun ms l => Marker.mapDelete l ms) markers
      let markers2 := Marker.showMarker markers1 rangeStart userName "edited" (some rangeEnd)
      ⟨some (rangeStart, rangeEnd), [], changes', reservations', markers2⟩
    else ⟨none, recent, changes, reservations, markers⟩
  else ⟨none, recent, changes, reservations, markers⟩

/-! ## useRealTimeCollaboration.js: `createChangeBlocks` -/

/-- One uncommitted change block produced at push time. -/
structure UncommittedBlock where
  blockId : String
  startLine : Int
  endLine : Int
  changes : List String
  changeType : String
  deriving DecidableEq, Repr

/-- The template-literal block id `` `${userName}-block-${Date.now()}-${blocks.length}` ``. -/
def blockIdFor (userName : String) (now : Int) (idx : Nat) : String :=
  userName ++ "-block-" ++ toString now ++ "-" ++ toString idx

/-- A freshly started block for one change. -/
def newBlock (userName : String) (now : Int) (idx : Nat)
    (change : ChangeData) : UncommittedBlock :=
  ⟨blockIdFor userName now idx, change.lineNumber, change.lineNumber,
    [change.lineContent], change.changeType⟩

/-- Folding one consecutive change into the current block; a mixed run's
change type degrades to `"edited"`. -/
def extendBlock (cb : UncommittedBlock) (change : ChangeData) : UncommittedBlock :=
  { cb with
    endLine := change.lineNumber,
    changes := cb.changes ++ [change.lineContent],
    changeType := if cb.changeType ≠ change.changeType then "edited" else cb.changeType }

/-- The body of the `sortedChanges.forEach` loop of `createChangeBlocks`,
acting on the accumulator `(blocks, currentBlock)`. -/
def ccbStep (userName : String) (now : Int)
    (acc : List UncommittedBlock × Option UncommittedBlock)
    (change : ChangeData) : List UncommittedBlock × Option UncommittedBlock :=
  match acc.2 with
  | none => (acc.1, some (newBlock userName now acc.1.length change))
  | some cb =>
    if change.lineNumber = cb.endLine + 1 then
      (acc.1, some (extendBlock cb change))
    else
      (acc.1 ++ [cb], some (newBlock userName now (acc.1.length + 1) change))

/-- `createChangeBlocks(changes, userName)`: sort the drained change facts by
line number and fold consecutive ones into blocks. -/
def createChangeBlocks (changes : List ChangeData) (userName : String)
    (now : Int) : List UncommittedBlock :=
  if changes.length = 0 then []
  else
    let sortedChanges := sortByKey (fun c => c.lineNumber) changes
    match sortedChanges.foldl (ccbStep userName now) ([], none) with
    | (blocks, none) => blocks
    | (blocks, some cb) => blocks ++ [cb]

/-! Claim-side restatement of `createChangeBlocks` (used only to compare the
implementation against the specification's wording). -/

/-- Chunking a sorted fact list into maximal runs in which each successive
fact's line number is exactly one more than the previous one's; a run is a
head fact plus its tail.  This follows the specification's wording for
`groupIntoBlocks`. -/
def chunkRuns : List ChangeData → List (ChangeData × List ChangeData)
  | [] => []
  | f :: rest =>
    match chunkRuns rest with
    | [] => [(f, [])]
    | (g, gs) :: rs =>
      if g.lineNumber = f.lineNumber + 1 then (f, g :: gs) :: rs
      else (f, []) :: (g, gs) :: rs

/-- The specification's change-kind policy for a run: the common kind if the
run is uniform, `"edited"` if it mixes kinds. -/
def runChangeKind (h : ChangeData) (t : List ChangeData) : String :=
  if t.all (fun c => c.changeType = h.changeType) then h.changeType else "edited"

/-- The block the specification's wording assigns to the `idx`-th run. -/
def specBlock (userName : String) (now : Int) (idx : Nat) (h : ChangeData)
    (t : List ChangeData) : UncommittedBlock :=
  ⟨blockIdFor userName now idx, h.lineNumber, (t.getLastD h).lineNumber,
    h.lineContent :: t.map (fun c => c.lineContent), runChangeKind h t⟩

/-- All blocks of a run list, numbering runs from `idx`. -/
def buildChunkBlocks (userName : String) (now : Int) :
    Nat → List (ChangeData × List ChangeData) → List UncommittedBlock
  | _, [] => []
  | idx, (h, t) :: rs =>
    specBlock userName now idx h t :: buildChunkBlocks userName now (idx + 1) rs

/-- `groupIntoBlocks` as the specification words it: sort by line number,
chunk into maximal consecutive runs, and emit one block per run with the
mixed-kind policy. -/
def createChangeBlocksSpec (changes : List ChangeData) (userName : String)
    (now : Int) : List UncommittedBlock :=
  buildChunkBlocks userName now 0 (chunkRuns (sortByKey (fun c => c.lineNumber) changes))

/-! ## useRealTimeCollaboration.js: `mergeCode` -/

/-- The line-building loop of `mergeCode`: for each index up to the longer
buffer's length, push the source's line where both buffers have the index and
the lines differ, the common line where they are equal, and the only present
buffer's line otherwise. -/
def mergeLines (targetLines sourceLines : List String) : List String :=
  (List.range (max targetLines.length sourceLines.length)).map (fun i =>
    if i < targetLines.length ∧ i < sourceLines.length then
      if targetLines.getD i "" ≠ sourceLines.getD i "" then sourceLines.getD i ""
      else targetLines.getD i ""
    else if i < sourceLines.length then sourceLines.getD i ""
    else targetLines.getD i "")

/-- `mergeCode(targetContent, sourceContent)`: split both buffers on newlines,
merge positionally, and join with newlines. -/
def mergeCode (targetContent sourceContent : String) : String :=
  joinNl (mergeLines (splitNl targetContent) (splitNl sourceContent))

/-! ## ChangeBlock.js -/

/-- The data of one change block (`this.blocks` entry, minus the DOM
element). -/
structure BlockData where
  startLine : Int
  endLine : Int
  userName : String
  changes : List String
  changeType : String
  deriving DecidableEq, Repr

namespace ChangeBlock

/-- `ChangeBlock.remove(blockId)`: delete the block's map entry (the DOM
element removal is visual only). -/
def remove (st : List (String × BlockData)) (blockId : String) :
    List (String × BlockData) :=
  assocDelete blockId st

/-- `ChangeBlock.create(blockId, startLine, endLine, userName, changes,
changeType)`: any existing block with the id is removed first, then the new
block is set under the id. -/
def create (st : List (String × BlockData)) (blockId : String)
    (startLine endLine : Int) (userName : String) (changes : List String)
    (changeType : String) : List (String × BlockData) :=
  assocSet blockId ⟨startLine, endLine, userName, changes, changeType⟩
    (remove st blockId)

/-- `ChangeBlock.split(blockId, splitLine)`: returns the pair of new block ids
and the updated block map, or `none` (JS `null`) with the map unchanged when
the block is missing or the split line is not strictly inside the block. -/
def split (st : List (String × BlockData)) (blockId : String)
    (splitLine : Int) : Option (String × String) × List (String × BlockData) :=
  match assocGet? blockId st with
  | none => (none, st)
  | some blockData =>
    if splitLine ≤ blockData.startLine ∨ splitLine ≥ blockData.endLine then
      (none, st)
    else
      let relativeSplit := (splitLine - blockData.startLine).toNat
      let firstPartChanges := blockData.changes.take relativeSplit
      let secondPartChanges := blockData.changes.drop relativeSplit
      let firstBlockId := blockId ++ "-part1"
      let secondBlockId := blockId ++ "-part2"
      let st1 := create st firstBlockId blockData.startLine (splitLine - 1)
        blockData.userName firstPartChanges blockData.changeType
      let st2 := create st1 secondBlockId splitLine blockData.endLine
        blockData.userName secondPartChanges blockData.changeType
      (some (firstBlockId, secondBlockId), remove st2 blockId)

/-- The per-block update `ChangeBlock.adjustByContent` computes: find the
block's first recorded line in the new line sequence; when found at a
position implying changed bounds, the new `(startLine, endLine)`. -/
def reanchorUpdate (newLines : List String) (bd : BlockData) :
    Option (Int × Int) :=
  match bd.changes.head? with
  | none => none
  | some firstChange =>
    let newStartIndex := jsFindIndexEq firstChange newLines
    if newStartIndex ≠ -1 then
      let newStartLine := newStartIndex + 1
      let newEndLine := newStartLine + (bd.changes.length : Int) - 1
      if newStartLine ≠ bd.startLine ∨ newEndLine ≠ bd.endLine then
        some (newStartLine, newEndLine)
      else none
    else none

/-- Applying one collected update `(blockId, newStartLine, newEndLine)`: look
the block up by id and rewrite its bounds in place (the map key, the block
id, does not change). -/
def applyUpdate (s : List (String × BlockData)) (u : String × Int × Int) :
    List (String × BlockData) :=
  match assocGet? u.1 s with
  | none => s
  | some bd => assocSet u.1 { bd with startLine := u.2.1, endLine := u.2.2 } s

/-- `ChangeBlock.adjustByContent(oldLines, newLines)`: collect the updates for
all blocks, then apply each in turn. -/
def adjustByContent (st : List (String × BlockData))
    (_oldLines newLines : List String) : List (String × BlockData) :=
  let blocksToUpdate := st.filterMap (fun p =>
    match reanchorUpdate newLines p.2 with
    | some u => some (p.1, u)
    | none => none)
  blocksToUpdate.foldl applyUpdate st

end ChangeBlock

/-! ## GutterIcons.js -/

/-- A gutter-icon map key: plain line numbers for single icons, and the
template strings `` `${start}-${end}` `` / `` `${start}-${end}-end` `` for
range icons. -/
abbrev GutterKey := Sum Int String

namespace GutterIcons

/-- The move `(oldLine, newLine, icon)` that `GutterIcons.adjustByContent`
collects for one icon entry — the body of its first (scanning) pass: for an
icon keyed by a line number within the old line count, look up the old
buffer's line at that position, find its first exact match in the new lines,
and record a move when the match sits at a different line; string (range)
keys fail the numeric comparison in JS and are skipped.  Whether a move is
produced depends only on the entry's key, never on the icon element. -/
def moveOf (oldLines newLines : List String) (p : GutterKey × Nat) :
    Option (Int × Int × Nat) :=
  match p.1 with
  | Sum.inr _ => none
  | Sum.inl lineNumber =>
    if lineNumber ≤ (oldLines.length : Int) then
      match jsGet? oldLines (lineNumber - 1) with
      | none => none
      | some oldLineContent =>
        let newLineIndex := jsFindIndexEq oldLineContent newLines
        if newLineIndex ≠ -1 then
          let newLineNumber := newLineIndex + 1
          if newLineNumber ≠ lineNumber then
            some (lineNumber, newLineNumber, p.2)
          else none
        else none
    else none

/-- `GutterIcons.adjustByContent(oldLines, newLines)`: collect the moves for
all icons (the `forEach` pass runs over the map snapshot before any
mutation), then apply each move as a `delete` of the old key followed by a
`set` of the new key.  Icons are identified here by an abstract `Nat` tag
standing for the DOM element. -/
def adjustByContent (icons : List (GutterKey × Nat))
    (oldLines newLines : List String) : List (GutterKey × Nat) :=
  let iconsToUpdate := icons.filterMap (moveOf oldLines newLines)
  iconsToUpdate.foldl (fun m u =>
    assocSet (Sum.inl u.2.1) u.2.2 (assocDelete (Sum.inl u.1) m)) icons

end GutterIcons

/-! ## Additional predicates and characterization helpers used by the
theorems -/

namespace Marker

/-- Two ranges overlap or are numerically adjacent (in either order). -/
def rangesTouch (a b : Marker) : Prop :=
  (a.line ≤ b.endLine ∧ b.line ≤ a.endLine) ∨
    a.endLine + 1 = b.line ∨ b.endLine + 1 = a.line

instance (a b : Marker) : Decidable (rangesTouch a b) := by
  unfold rangesTouch; infer_instance

/-- Every marker is a well-formed range: start at most end. -/
def Wf (st : List Marker) : Prop := ∀ m ∈ st, m.line ≤ m.endLine

instance (st : List Marker) : Decidable (Wf st) := by
  unfold Wf; infer_instance

end Marker

/-- Keys of an association-list map are pairwise distinct — the invariant of
every state reachable through the JavaScript `Map` API. -/
def AssocNodup {κ α : Type} (l : List (κ × α)) : Prop :=
  l.Pairwise (fun a b => a.1 ≠ b.1)

instance {κ α : Type} [DecidableEq κ] (l : List (κ × α)) :
    Decidable (AssocNodup l) := by
  unfold AssocNodup; infer_instance

/-- The per-block effect of `ChangeBlock.adjustByContent`: apply the
re-anchoring update when one is computed, keep the block untouched
otherwise. -/
def ChangeBlock.applyReanchor (newLines : List String) (bd : BlockData) :
    BlockData :=
  match ChangeBlock.reanchorUpdate newLines bd with
  | none => bd
  | some u => { bd with startLine := u.1, endLine := u.2 }

/-- Tail of the `createChangeBlocks` fold once a current block exists:
consume the remaining sorted changes, extending on `+1` adjacency and
emitting the current block on a gap (`idx` is the number of blocks emitted
so far, which indexes fresh block ids). -/
def consumeBlocks (userName : String) (now : Int) :
    UncommittedBlock → Nat → List ChangeData → List UncommittedBlock
  | cb, _, [] => [cb]
  | cb, idx, c :: cs =>
    if c.lineNumber = cb.endLine + 1 then
      consumeBlocks userName now (extendBlock cb c) idx cs
    else
      cb :: consumeBlocks userName now (newBlock userName now (idx + 1) c) (idx + 1) cs

/-- The change-kind fold of `createChangeBlocks` in isolation. -/
def foldKindAcc (a : String) (ks : List String) : String :=
  ks.foldl (fun acc k => if acc ≠ k then "edited" else acc) a

/-- One step of reading off the blocks of a chunked run list while a current
block is still open: the first chunk is absorbed into the current block when
its head is adjacent to the block's end, and otherwise the current block is
emitted before the remaining chunks (fresh blocks are numbered from
`nextIdx`). -/
def chunkStep (userName : String) (now : Int) (cb : UncommittedBlock)
    (nextIdx : Nat) : List (ChangeData × List ChangeData) → List UncommittedBlock
  | [] => [cb]
  | (g, gs) :: rs =>
    if g.lineNumber = cb.endLine + 1 then
      ((g :: gs).foldl extendBlock cb) :: buildChunkBlocks userName now nextIdx rs
    else cb :: buildChunkBlocks userName now nextIdx ((g, gs) :: rs)

/-! # Theorems

First, general lemmas about the sorting and map models; then the claims. -/

theorem insertByKey_perm {α : Type} (key : α → Int) (x : α) (l : List α) :
    List.Perm (insertByKey key x l) (x :: l) := by
  induction l with
  | nil => exact List.Perm.refl _
  | cons y ys ih =>
    simp only [insertByKey]
    split
    · exact List.Perm.refl _
    · exact List.Perm.trans (List.Perm.cons y ih) (List.Perm.swap x y ys)

theorem sortByKey_perm {α : Type} (key : α → Int) (l : List α) :
    List.Perm (sortByKey key l) l := by
  induction l with
  | nil => exact List.Perm.refl _
  | cons x xs ih =>
    exact List.Perm.trans (insertByKey_perm key x (sortByKey key xs))
      (List.Perm.cons x ih)

theorem sortByKey_length {α : Type} (key : α → Int) (l : List α) :
    (sortByKey key l).length = l.length :=
  (sortByKey_perm key l).length_eq

theorem sortByKey_mem {α : Type} (key : α → Int) (l : List α) (a : α) :
    a ∈ sortByKey key l ↔ a ∈ l :=
  (sortByKey_perm key l).mem_iff

theorem assocGet?_set_self {κ α : Type} [DecidableEq κ] (k : κ) (v : α)
    (l : List (κ × α)) : assocGet? k (assocSet k v l) = some v := by
  induction l with
  | nil => simp [assocSet, assocGet?]
  | cons p rest ih =>
    by_cases h : p.1 = k
    · simp [assocSet, assocGet?, h]
    · simp only [assocSet, if_neg h, assocGet?, if_neg h]
      exact ih

theorem assocGet?_set_ne {κ α : Type} [DecidableEq κ] {k' k : κ} (v : α)
    (l : List (κ × α)) (h : k' ≠ k) :
    assocGet? k' (assocSet k v l) = assocGet? k' l := by
  induction l with
  | nil => simp [assocSet, assocGet?, Ne.symm h]
  | cons p rest ih =>
    by_cases hp : p.1 = k
    · have hp' : ¬ k = k' := Ne.symm h
      have hp'' : ¬ p.1 = k' := by rw [hp]; exact hp'
      simp [assocSet, assocGet?, hp, hp', hp'']
    · by_cases hq : p.1 = k'
      · simp [assocSet, assocGet?, hp, hq, h]
      · simp only [assocSet, if_neg hp, assocGet?, if_neg hq]
        exact ih

theorem assocGet?_delete_ne {κ α : Type} [DecidableEq κ] {k' k : κ}
    (l : List (κ × α)) (h : k' ≠ k) :
    assocGet? k' (assocDelete k l) = assocGet? k' l := by
  induction l with
  | nil => simp [assocDelete]
  | cons p rest ih =>
    by_cases hp : p.1 = k
    · have hp'' : ¬ p.1 = k' := by rw [hp]; exact Ne.symm h
      simp only [assocDelete, if_pos hp, assocGet?, if_neg hp'']
    · by_cases hq : p.1 = k'
      · simp [assocDelete, assocGet?, hp, hq, h]
      · simp only [assocDelete, if_neg hp, assocGet?, if_neg hq]
        exact ih

theorem assocDelete_sublist {κ α : Type} [DecidableEq κ] (k : κ)
    (l : List (κ × α)) : List.Sublist (assocDelete k l) l := by
  induction l with
  | nil => simp [assocDelete]
  | cons p rest ih =>
    by_cases hp : p.1 = k
    · simp only [assocDelete, if_pos hp]
      exact List.sublist_cons_of_sublist p (List.Sublist.refl rest)
    · simp only [assocDelete, if_neg hp]
      exact List.Sublist.cons₂ p ih

theorem assocNodup_delete {κ α : Type} [DecidableEq κ] (k : κ)
    {l : List (κ × α)} (h : AssocNodup l) : AssocNodup (assocDelete k l) :=
  List.Pairwise.sublist (assocDelete_sublist k l) h

theorem assocGet?_eq_none {κ α : Type} [DecidableEq κ] {k : κ}
    {l : List (κ × α)} (h : ∀ p ∈ l, p.1 ≠ k) : assocGet? k l = none := by
  induction l with
  | nil => rfl
  | cons p rest ih =>
    have hp := h p (List.mem_cons_self p rest)
    simp only [assocGet?, if_neg hp]
    exact ih (fun q hq => h q (List.mem_cons_of_mem p hq))

theorem assocGet?_delete_self {κ α : Type} [DecidableEq κ] (k : κ)
    {l : List (κ × α)} (h : AssocNodup l) :
    assocGet? k (assocDelete k l) = none := by
  induction l with
  | nil => rfl
  | cons p rest ih =>
    rcases List.pairwise_cons.mp h with ⟨hhead, htail⟩
    by_cases hp : p.1 = k
    · simp only [assocDelete, if_pos hp]
      refine assocGet?_eq_none (fun q hq => ?_)
      have := hhead q hq
      rw [hp] at this
      exact fun hq1 => this (by rw [hq1])
    · simp only [assocDelete, if_neg hp, assocGet?, if_neg hp]
      exact ih htail

theorem assocSet_mem_sub {κ α : Type} [DecidableEq κ] {k : κ} {v : α}
    {l : List (κ × α)} {y : κ × α} (h : y ∈ assocSet k v l) :
    y = (k, v) ∨ y ∈ l := by
  induction l with
  | nil => simpa [assocSet] using h
  | cons p rest ih =>
    by_cases hp : p.1 = k
    · simp only [assocSet, if_pos hp, List.mem_cons] at h
      rcases h with h | h
      · exact Or.inl h
      · exact Or.inr (List.mem_cons_of_mem p h)
    · simp only [assocSet, if_neg hp, List.mem_cons] at h
      rcases h with h | h
      · exact Or.inr (by rw [h]; exact List.mem_cons_self p rest)
      · rcases ih h with h1 | h1
        · exact Or.inl h1
        · exact Or.inr (List.mem_cons_of_mem p h1)

theorem assocNodup_set {κ α : Type} [DecidableEq κ] (k : κ) (v : α)
    {l : List (κ × α)} (h : AssocNodup l) : AssocNodup (assocSet k v l) := by
  induction l with
  | nil => simp [assocSet, AssocNodup]
  | cons p rest ih =>
    rcases List.pairwise_cons.mp h with ⟨hhead, htail⟩
    by_cases hp : p.1 = k
    · simp only [assocSet, if_pos hp]
      refine List.pairwise_cons.mpr ⟨fun q hq => ?_, htail⟩
      have := hhead q hq
      rw [hp] at this
      exact this
    · simp only [assocSet, if_neg hp]
      refine List.pairwise_cons.mpr ⟨fun q hq => ?_, ih htail⟩
      rcases assocSet_mem_sub hq with h1 | h1
      · rw [h1]; exact hp
      · exact hhead q h1

namespace Marker

theorem mapSet_mem_sub {m : Marker} {l : List Marker} {y : Marker}
    (h : y ∈ mapSet m l) : y = m ∨ y ∈ l := by
  induction l with
  | nil => simpa [mapSet] using h
  | cons x xs ih =>
    by_cases hx : x.line = m.line
    · simp only [mapSet, if_pos hx, List.mem_cons] at h
      rcases h with h | h
      · exact Or.inl h
      · exact Or.inr (List.mem_cons_of_mem x h)
    · simp only [mapSet, if_neg hx, List.mem_cons] at h
      rcases h with h | h
      · exact Or.inr (by rw [h]; exact List.mem_cons_self x xs)
      · rcases ih h with h1 | h1
        · exact Or.inl h1
        · exact Or.inr (List.mem_cons_of_mem x h1)

theorem mapDelete_sublist (k : Int) (l : List Marker) :
    List.Sublist (mapDelete k l) l := by
  induction l with
  | nil => simp [mapDelete]
  | cons x xs ih =>
    by_cases hx : x.line = k
    · simp only [mapDelete, if_pos hx]
      exact List.sublist_cons_of_sublist x (List.Sublist.refl xs)
    · simp only [mapDelete, if_neg hx]
      exact List.Sublist.cons₂ x ih

theorem keysNodup_mapDelete (k : Int) {l : List Marker} (h : KeysNodup l) :
    KeysNodup (mapDelete k l) :=
  List.Pairwise.sublist (mapDelete_sublist k l) h

theorem keysNodup_mapSet (m : Marker) {l : List Marker} (h : KeysNodup l) :
    KeysNodup (mapSet m l) := by
  induction l with
  | nil => simp [mapSet, KeysNodup]
  | cons x xs ih =>
    rcases List.pairwise_cons.mp h with ⟨hhead, htail⟩
    by_cases hx : x.line = m.line
    · simp only [mapSet, if_pos hx]
      refine List.pairwise_cons.mpr ⟨fun y hy => ?_, htail⟩
      have := hhead y hy
      rw [hx] at this
      exact this
    · simp only [mapSet, if_neg hx]
      refine List.pairwise_cons.mpr ⟨fun y hy => ?_, ih htail⟩
      rcases mapSet_mem_sub hy with h1 | h1
      · rw [h1]; exact hx
      · exact hhead y h1

theorem mapSet_eq_append {m : Marker} {l : List Marker}
    (h : ∀ x ∈ l, x.line ≠ m.line) : mapSet m l = l ++ [m] := by
  induction l with
  | nil => rfl
  | cons x xs ih =>
    have hx := h x (List.mem_cons_self x xs)
    simp only [mapSet, if_neg hx, List.cons_append]
    rw [ih (fun y hy => h y (List.mem_cons_of_mem x hy))]

theorem mapSet_length_le (m : Marker) (l : List Marker) :
    (mapSet m l).length ≤ l.length + 1 := by
  induction l with
  | nil => simp [mapSet]
  | cons x xs ih =>
    by_cases hx : x.line = m.line
    · simp [mapSet, if_pos hx]
    · simp only [mapSet, if_neg hx, List.length_cons]
      omega

theorem mapDelete_length {k : Int} {l : List Marker}
    (h : ∃ x ∈ l, x.line = k) : (mapDelete k l).length + 1 = l.length := by
  induction l with
  | nil => simp at h
  | cons x xs ih =>
    by_cases hx : x.line = k
    · simp [mapDelete, if_pos hx]
    · simp only [mapDelete, if_neg hx, List.length_cons]
      rcases h with ⟨y, hy, hyk⟩
      rcases List.mem_cons.mp hy with h1 | h1
      · exact absurd (by rw [← h1]; exact hyk) hx
      · rw [← ih ⟨y, h1, hyk⟩]

theorem mapDelete_perm {st : List Marker} {c : Marker} {t : List Marker}
    (hnd : KeysNodup st) (hp : List.Perm st (c :: t)) :
    List.Perm (mapDelete c.line st) t := by
  induction st generalizing t with
  | nil => exact absurd hp.symm (by simp)
  | cons x xs ih =>
    rcases List.pairwise_cons.mp hnd with ⟨hhead, htail⟩
    by_cases hx : x.line = c.line
    · have hcx : c = x := by
        have hcmem : c ∈ x :: xs := hp.symm.subset (List.mem_cons_self c t)
        rcases List.mem_cons.mp hcmem with h1 | h1
        · exact h1
        · exact absurd hx.symm (fun hcl => hhead c h1 hcl.symm)
      simp only [mapDelete, if_pos hx]
      rw [← hcx] at hp
      exact hp.cons_inv
    · have hcmem : c ∈ x :: xs := hp.symm.subset (List.mem_cons_self c t)
      have hcxs : c ∈ xs := by
        rcases List.mem_cons.mp hcmem with h1 | h1
        · exact absurd (by rw [h1]) hx
        · exact h1
      have hxt : x ∈ t := by
        have : x ∈ c :: t := hp.subset (List.mem_cons_self x xs)
        rcases List.mem_cons.mp this with h1 | h1
        · exact absurd (by rw [h1]) hx
        · exact h1
      have ht : List.Perm t (x :: t.erase x) := List.perm_cons_erase hxt
      have hxs : List.Perm xs (c :: t.erase x) := by
        have h1 : List.Perm (x :: xs) (c :: x :: t.erase x) :=
          hp.trans (List.Perm.cons c ht)
        have h2 : List.Perm (x :: xs) (x :: c :: t.erase x) :=
          h1.trans (List.Perm.swap x c (t.erase x))
        exact h2.cons_inv
      simp only [mapDelete, if_neg hx]
      exact (List.Perm.cons x (ih htail hxs)).trans ht.symm

end Marker

namespace Marker

theorem covers_perm {st st' : List Marker} (h : List.Perm st st') (w : String)
    (x : Int) : covers st w x ↔ covers st' w x := by
  unfold covers
  constructor <;> rintro ⟨m, hm, hrest⟩
  · exact ⟨m, h.subset hm, hrest⟩
  · exact ⟨m, h.symm.subset hm, hrest⟩

theorem keysNodup_perm {st st' : List Marker} (h : List.Perm st st')
    (hnd : KeysNodup st) : KeysNodup st' :=
  (List.Perm.pairwise_iff (fun hne => Ne.symm hne) h).mp hnd

theorem covers_merge_step {done rest : List Marker} {a b : Marker}
    (huser : a.rawUser = b.rawUser) (hadj : a.endLine + 1 = b.line)
    (hwa : a.line ≤ a.endLine) (hwb : b.line ≤ b.endLine) (w : String)
    (x : Int) :
    covers (done ++ { a with endLine := b.endLine } :: rest) w x ↔
      covers (done ++ a :: b :: rest) w x := by
  obtain ⟨al, ae, au, ak⟩ := a
  obtain ⟨bl, be, bu, bk⟩ := b
  simp only at huser hadj hwa hwb
  unfold covers
  constructor
  · rintro ⟨m, hm, hu, h1, h2⟩
    rcases List.mem_append.mp hm with h | h
    · exact ⟨m, List.mem_append_left _ h, hu, h1, h2⟩
    · rcases List.mem_cons.mp h with h | h
      · subst h
        simp only at hu h1 h2
        by_cases hx : x ≤ ae
        · exact ⟨⟨al, ae, au, ak⟩,
            List.mem_append_right _ (List.mem_cons_self _ _), hu, h1, hx⟩
        · refine ⟨⟨bl, be, bu, bk⟩,
            List.mem_append_right _
              (List.mem_cons_of_mem _ (List.mem_cons_self _ _)), ?_, ?_, h2⟩
          · rw [← huser]; exact hu
          · show bl ≤ x
            omega
      · exact ⟨m,
          List.mem_append_right _
            (List.mem_cons_of_mem _ (List.mem_cons_of_mem _ h)), hu, h1, h2⟩
  · rintro ⟨m, hm, hu, h1, h2⟩
    rcases List.mem_append.mp hm with h | h
    · exact ⟨m, List.mem_append_left _ h, hu, h1, h2⟩
    · rcases List.mem_cons.mp h with h | h
      · subst h
        simp only at hu h1 h2
        refine ⟨⟨al, be, au, ak⟩,
          List.mem_append_right _ (List.mem_cons_self _ _), hu, h1, ?_⟩
        simp only
        omega
      · rcases List.mem_cons.mp h with h | h
        · subst h
          simp only at hu h1 h2
          refine ⟨⟨al, be, au, ak⟩,
            List.mem_append_right _ (List.mem_cons_self _ _), ?_, ?_, ?_⟩
          · rw [huser]; exact hu
          · simp only; omega
          · simp only; omega
        · exact ⟨m, List.mem_append_right _ (List.mem_cons_of_mem _ h),
            hu, h1, h2⟩

theorem consLoopGo_main (rest : List Marker) :
    ∀ (a : Marker) (done st : List Marker),
      KeysNodup st → List.Perm st (done ++ a :: rest) →
      (consLoopGo a rest st).length ≤ st.length ∧
      (Wf st → ∀ w x, (covers (consLoopGo a rest st) w x ↔ covers st w x)) := by
  induction rest with
  | nil =>
    intro a done st _ _
    exact ⟨Nat.le_refl _, fun _ _ _ => Iff.rfl⟩
  | cons b rest' ih =>
    intro a done st hnd hperm
    by_cases hm : a.rawUser = b.rawUser ∧ a.endLine + 1 = b.line
    · -- merge step
      have hperm1 : List.Perm st (b :: (done ++ a :: rest')) := by
        have e1 : done ++ a :: b :: rest' = (done ++ [a]) ++ b :: rest' := by
          simp
        have h1 : List.Perm ((done ++ [a]) ++ b :: rest')
            (b :: ((done ++ [a]) ++ rest')) := List.perm_middle
        have e2 : (done ++ [a]) ++ rest' = done ++ a :: rest' := by simp
        rw [e1] at hperm
        rw [e2] at h1
        exact hperm.trans h1
      set st1 := mapDelete b.line st with hst1
      have hp1 : List.Perm st1 (done ++ a :: rest') := mapDelete_perm hnd hperm1
      have hnd1 : KeysNodup st1 := keysNodup_mapDelete _ hnd
      have hperm2 : List.Perm st1 (a :: (done ++ rest')) :=
        hp1.trans List.perm_middle
      set st1d := mapDelete a.line st1 with hst1d
      have hp2 : List.Perm st1d (done ++ rest') := mapDelete_perm hnd1 hperm2
      have hnd1d : KeysNodup st1d := keysNodup_mapDelete _ hnd1
      have hkeys : ∀ y ∈ done ++ rest', a.line ≠ y.line := by
        have hnd2 : KeysNodup (a :: (done ++ rest')) :=
          keysNodup_perm hperm2 hnd1
        exact (List.pairwise_cons.mp hnd2).1
      set a' : Marker := { a with endLine := b.endLine } with ha'
      have ha'line : a'.line = a.line := rfl
      have hkeys' : ∀ y ∈ st1d, y.line ≠ a'.line := by
        intro y hy
        have : a.line ≠ y.line := hkeys y (hp2.subset hy)
        rw [ha'line]
        exact Ne.symm this
      have heq : updateMarkerRange a a.line b.endLine st1 = st1d ++ [a'] := by
        unfold updateMarkerRange
        rw [← hst1d]
        exact mapSet_eq_append hkeys'
      have hpermst2 : List.Perm (st1d ++ [a']) (done ++ a' :: rest') := by
        refine (List.perm_append_singleton a' st1d).trans ?_
        exact (List.Perm.cons a' hp2).trans List.perm_middle.symm
      have hndst2 : KeysNodup (st1d ++ [a']) := by
        rw [← heq]
        unfold updateMarkerRange
        rw [← hst1d]
        exact keysNodup_mapSet _ hnd1d
      -- membership facts
      have hamem : a ∈ st := hperm.symm.subset
        (List.mem_append_right _ (List.mem_cons_self _ _))
      have hbmem : b ∈ st := hperm1.symm.subset (List.mem_cons_self _ _)
      have hbst1 : ∃ y ∈ st, y.line = b.line := ⟨b, hbmem, rfl⟩
      have hast1 : ∃ y ∈ st1, y.line = a.line :=
        ⟨a, hperm2.symm.subset (List.mem_cons_self _ _), rfl⟩
      have hlen2 : (st1d ++ [a']).length = st.length - 1 := by
        have l1 : st1.length + 1 = st.length := mapDelete_length hbst1
        have l2 : st1d.length + 1 = st1.length := mapDelete_length hast1
        simp only [List.length_append, List.length_cons, List.length_nil]
        omega
      have hlenpos : 0 < st.length := List.length_pos.mpr
        (fun he => by rw [he] at hamem; exact absurd hamem (List.not_mem_nil a))
      obtain ⟨ihlen, ihcov⟩ := ih a' done (st1d ++ [a']) hndst2 hpermst2
      have hgoeq : consLoopGo a (b :: rest') st = consLoopGo a' rest' (st1d ++ [a']) := by
        simp only [consLoopGo, if_pos hm]
        rw [heq]
      constructor
      · rw [hgoeq]
        calc (consLoopGo a' rest' (st1d ++ [a'])).length
            ≤ (st1d ++ [a']).length := ihlen
          _ ≤ st.length := by omega
      · intro hwf w x
        have hwa : a.line ≤ a.endLine := hwf a hamem
        have hwb : b.line ≤ b.endLine := hwf b hbmem
        have hwf2 : Wf (st1d ++ [a']) := by
          intro m hmm
          rcases List.mem_append.mp hmm with h | h
          · exact hwf m
              ((List.Sublist.subset (mapDelete_sublist _ _))
                ((List.Sublist.subset (mapDelete_sublist _ _)) h))
          · rcases List.mem_cons.mp h with h | h
            · rw [h, ha']
              show a.line ≤ b.endLine
              omega
            · exact absurd h (List.not_mem_nil m)
        rw [hgoeq, ihcov hwf2 w x]
        rw [covers_perm hpermst2 w x, covers_perm hperm w x]
        exact covers_merge_step hm.1 hm.2 hwa hwb w x
    · -- no merge: advance
      have hperm' : List.Perm st ((done ++ [a]) ++ b :: rest') := by
        have e1 : done ++ a :: b :: rest' = (done ++ [a]) ++ b :: rest' := by
          simp
        rw [e1] at hperm
        exact hperm
      obtain ⟨ihlen, ihcov⟩ := ih b (done ++ [a]) st hnd hperm'
      have hgoeq : consLoopGo a (b :: rest') st = consLoopGo b rest' st := by
        simp only [consLoopGo, if_neg hm]
      rw [hgoeq]
      exact ⟨ihlen, ihcov⟩

theorem consLoopGo_no_merge (rest : List Marker) :
    ∀ (a : Marker) (st : List Marker),
      List.Chain'
        (fun p q => ¬(p.rawUser = q.rawUser ∧ p.endLine + 1 = q.line))
        (a :: rest) →
      consLoopGo a rest st = st := by
  induction rest with
  | nil => intro a st _; rfl
  | cons b rest' ih =>
    intro a st hch
    rcases List.chain'_cons.mp hch with ⟨hab, hch'⟩
    simp only [consLoopGo, if_neg hab]
    exact ih b st hch'

end Marker

namespace Marker

theorem consolidateAllMarkers_length {st : List Marker} (hnd : KeysNodup st) :
    (consolidateAllMarkers st).length ≤ st.length := by
  show (if (sortByKey (fun m => m.line) st).length < 2 then st
      else consLoop (sortByKey (fun m => m.line) st) st).length ≤ st.length
  by_cases h2 : (sortByKey (fun m => m.line) st).length < 2
  · rw [if_pos h2]
  · rw [if_neg h2]
    rcases harr : sortByKey (fun m => m.line) st with _ | ⟨a, rest⟩
    · rw [harr] at h2
      simp at h2
    · have hperm : List.Perm st ([] ++ a :: rest) := by
        have h1 := (sortByKey_perm (fun m => m.line) st).symm
        rw [harr] at h1
        simpa using h1
      rw [harr]
      show (consLoopGo a rest st).length ≤ st.length
      exact (consLoopGo_main rest a [] st hnd hperm).1

theorem consolidateAllMarkers_covers {st : List Marker} (hnd : KeysNodup st)
    (hwf : Wf st) (w : String) (x : Int) :
    covers (consolidateAllMarkers st) w x ↔ covers st w x := by
  show covers (if (sortByKey (fun m => m.line) st).length < 2 then st
      else consLoop (sortByKey (fun m => m.line) st) st) w x ↔ covers st w x
  by_cases h2 : (sortByKey (fun m => m.line) st).length < 2
  · rw [if_pos h2]
  · rw [if_neg h2]
    rcases harr : sortByKey (fun m => m.line) st with _ | ⟨a, rest⟩
    · rw [harr] at h2
      simp at h2
    · have hperm : List.Perm st ([] ++ a :: rest) := by
        have h1 := (sortByKey_perm (fun m => m.line) st).symm
        rw [harr] at h1
        simpa using h1
      rw [harr]
      show covers (consLoopGo a rest st) w x ↔ covers st w x
      exact (consLoopGo_main rest a [] st hnd hperm).2 hwf w x

theorem chainNoMerge_of {st : List Marker} (hnd : KeysNodup st)
    (h : ∀ a ∈ st, ∀ b ∈ st, a.rawUser = b.rawUser → a ≠ b →
        ¬ rangesTouch a b) :
    List.Chain' (fun p q => ¬(p.rawUser = q.rawUser ∧ p.endLine + 1 = q.line))
      (sortByKey (fun m => m.line) st) := by
  have hndarr : KeysNodup (sortByKey (fun m => m.line) st) :=
    keysNodup_perm (sortByKey_perm _ st).symm hnd
  refine List.Pairwise.chain' ?_
  refine List.Pairwise.imp_of_mem ?_ hndarr
  intro p q hp hq hne
  rintro ⟨hu, hadj⟩
  have hpst : p ∈ st := (sortByKey_mem _ st p).mp hp
  have hqst : q ∈ st := (sortByKey_mem _ st q).mp hq
  have hpq : p ≠ q := fun he => hne (by rw [he])
  exact h p hpst q hqst hu hpq (Or.inr (Or.inl hadj))

end Marker

/-- Claim C9 counterexample: a marker set with no two ranges of the same
author *and change kind* overlapping or adjacent (the two ranges here share
the author but differ in kind) on which `consolidateAllMarkers` is *not* the
identity — it merges the two ranges, so the claimed idempotence fails as
stated. -/
theorem C9_counterexample :
    (∀ a ∈ ([⟨1, 2, "X", "added"⟩, ⟨3, 4, "X", "edited"⟩] : List Marker),
      ∀ b ∈ ([⟨1, 2, "X", "added"⟩, ⟨3, 4, "X", "edited"⟩] : List Marker),
        a.rawUser = b.rawUser → a.changeType = b.changeType → a ≠ b →
          ¬ Marker.rangesTouch a b) ∧
    Marker.consolidateAllMarkers [⟨1, 2, "X", "added"⟩, ⟨3, 4, "X", "edited"⟩] ≠
      [⟨1, 2, "X", "added"⟩, ⟨3, 4, "X", "edited"⟩] := by
  decide

/-- Claim C9 (amended): for every marker map state (distinct start-line keys)
in which no two distinct ranges of the same *author* are overlapping or
numerically adjacent, running the full consolidation pass returns the
identical set; the pass is total, so it never fails. -/
theorem C9_consolidate_idempotent {st : List Marker}
    (hnd : Marker.KeysNodup st)
    (h : ∀ a ∈ st, ∀ b ∈ st, a.rawUser = b.rawUser → a ≠ b →
        ¬ Marker.rangesTouch a b) :
    Marker.consolidateAllMarkers st = st := by
  show (if (sortByKey (fun m => m.line) st).length < 2 then st
      else Marker.consLoop (sortByKey (fun m => m.line) st) st) = st
  by_cases h2 : (sortByKey (fun m => m.line) st).length < 2
  · rw [if_pos h2]
  · rw [if_neg h2]
    have hch := Marker.chainNoMerge_of hnd h
    rcases harr : sortByKey (fun m => m.line) st with _ | ⟨a, rest⟩
    · rw [harr] at h2
      simp at h2
    · rw [harr] at hch
      rw [harr]
      show Marker.consLoopGo a rest st = st
      exact Marker.consLoopGo_no_merge rest a st hch

/-- Claim C9 witness: a concrete already-consolidated state on which the
amended idempotence theorem applies. -/
theorem C9_consolidate_idempotent_witness :
    Marker.consolidateAllMarkers [⟨1, 2, "X", "added"⟩, ⟨4, 6, "X", "added"⟩] =
      [⟨1, 2, "X", "added"⟩, ⟨4, 6, "X", "added"⟩] :=
  C9_consolidate_idempotent (by decide) (by decide)

namespace Marker

theorem findMerge_none_iff {u k : String} {cs ce : Int} {st : List Marker} :
    findMerge u k cs ce st = none ↔
      ∀ m ∈ st, m.rawUser = u → m.changeType = k →
        ¬ mergeCandidateCase m cs ce := by
  induction st with
  | nil => simp [findMerge]
  | cons x rest ih =>
    by_cases hsame : x.rawUser = u ∧ x.changeType = k
    · by_cases hbot : x.endLine + 1 = cs
      · simp only [findMerge, if_pos hsame, if_pos hbot]
        constructor
        · intro h; exact absurd h (by simp)
        · intro h
          exact absurd (Or.inl hbot)
            (h x (List.mem_cons_self x rest) hsame.1 hsame.2)
      · by_cases htop : ce + 1 = x.line
        · simp only [findMerge, if_pos hsame, if_neg hbot, if_pos htop]
          constructor
          · intro h; exact absurd h (by simp)
          · intro h
            exact absurd (Or.inr (Or.inl htop))
              (h x (List.mem_cons_self x rest) hsame.1 hsame.2)
        · by_cases hov : (cs ≥ x.line ∧ cs ≤ x.endLine) ∨
              (ce ≥ x.line ∧ ce ≤ x.endLine)
          · simp only [findMerge, if_pos hsame, if_neg hbot, if_neg htop,
              if_pos hov]
            constructor
            · intro h; exact absurd h (by simp)
            · intro h
              exact absurd (Or.inr (Or.inr hov))
                (h x (List.mem_cons_self x rest) hsame.1 hsame.2)
          · simp only [findMerge, if_pos hsame, if_neg hbot, if_neg htop,
              if_neg hov]
            rw [ih]
            constructor
            · intro h m hm
              rcases List.mem_cons.mp hm with h1 | h1
              · intro _ _
                rw [h1]
                rintro (hc | hc | hc)
                · exact hbot hc
                · exact htop hc
                · exact hov hc
              · exact h m h1
            · intro h m hm
              exact h m (List.mem_cons_of_mem x hm)
    · simp only [findMerge, if_neg hsame]
      rw [ih]
      constructor
      · intro h m hm
        rcases List.mem_cons.mp hm with h1 | h1
        · intro h1' h2'
          rw [h1] at h1' h2'
          exact absurd ⟨h1', h2'⟩ hsame
        · exact h m h1
      · intro h m hm
        exact h m (List.mem_cons_of_mem x hm)

theorem findMerge_some {u k : String} {cs ce : Int} {st : List Marker}
    {ex : Marker} {ns ne : Int}
    (h : findMerge u k cs ce st = some (ex, ns, ne)) :
    ∃ pre post, st = pre ++ ex :: post ∧
      (∀ m ∈ pre, m.rawUser = u → m.changeType = k →
        ¬ mergeCandidateCase m cs ce) ∧
      ex.rawUser = u ∧ ex.changeType = k ∧
      ((ex.endLine + 1 = cs ∧ ns = ex.line ∧ ne = ce) ∨
       (ex.endLine + 1 ≠ cs ∧ ce + 1 = ex.line ∧ ns = cs ∧ ne = ex.endLine) ∨
       (ex.endLine + 1 ≠ cs ∧ ce + 1 ≠ ex.line ∧
         ((cs ≥ ex.line ∧ cs ≤ ex.endLine) ∨ (ce ≥ ex.line ∧ ce ≤ ex.endLine)) ∧
         ns = min ex.line cs ∧ ne = max ex.endLine ce)) := by
  induction st with
  | nil => exact absurd h (by simp [findMerge])
  | cons x rest ih =>
    by_cases hsame : x.rawUser = u ∧ x.changeType = k
    · by_cases hbot : x.endLine + 1 = cs
      · simp only [findMerge, if_pos hsame, if_pos hbot, Option.some_inj] at h
        injection h with hex h2
        injection h2 with hns hne
        subst hex
        refine ⟨[], rest, by simp, by simp, hsame.1, hsame.2, ?_⟩
        exact Or.inl ⟨hbot, hns.symm, hne.symm⟩
      · by_cases htop : ce + 1 = x.line
        · simp only [findMerge, if_pos hsame, if_neg hbot, if_pos htop,
            Option.some_inj] at h
          injection h with hex h2
          injection h2 with hns hne
          subst hex
          refine ⟨[], rest, by simp, by simp, hsame.1, hsame.2, ?_⟩
          exact Or.inr (Or.inl ⟨hbot, htop, hns.symm, hne.symm⟩)
        · by_cases hov : (cs ≥ x.line ∧ cs ≤ x.endLine) ∨
              (ce ≥ x.line ∧ ce ≤ x.endLine)
          · simp only [findMerge, if_pos hsame, if_neg hbot, if_neg htop,
              if_pos hov, Option.some_inj] at h
            injection h with hex h2
            injection h2 with hns hne
            subst hex
            refine ⟨[], rest, by simp, by simp, hsame.1, hsame.2, ?_⟩
            exact Or.inr (Or.inr ⟨hbot, htop, hov, hns.symm, hne.symm⟩)
          · simp only [findMerge, if_pos hsame, if_neg hbot, if_neg htop,
              if_neg hov] at h
            obtain ⟨pre, post, hst, hpre, hrest⟩ := ih h
            refine ⟨x :: pre, post, by rw [hst]; rfl, ?_, hrest⟩
            intro m hm
            rcases List.mem_cons.mp hm with h1 | h1
            · intro _ _
              rw [h1]
              rintro (hc | hc | hc)
              · exact hbot hc
              · exact htop hc
              · exact hov hc
            · exact hpre m h1
    · simp only [findMerge, if_neg hsame] at h
      obtain ⟨pre, post, hst, hpre, hrest⟩ := ih h
      refine ⟨x :: pre, post, by rw [hst]; rfl, ?_, hrest⟩
      intro m hm
      rcases List.mem_cons.mp hm with h1 | h1
      · intro h1' h2'
        rw [h1] at h1' h2'
        exact absurd ⟨h1', h2'⟩ hsame
      · exact hpre m h1

theorem showMarker_eq_match (st : List Marker) (cs ce : Int) (u k : String)
    (hcs : 1 ≤ cs) (hce : ce ≠ 0) :
    showMarker st cs u k (some ce) =
      (match findMerge u k cs ce st with
       | some (ex, newStart, newEnd) =>
           consolidateAllMarkers (updateMarkerRange ex newStart newEnd st)
       | none => mapSet ⟨cs, ce, u, k⟩ st) := by
  have hlt : ¬ cs < 1 := by omega
  simp only [showMarker, if_neg hlt, resolveEnd, if_neg hce]

end Marker

/-- Claim C2: for a call to `Marker.show` with candidate `(cs, ce, u, k)`
(valid line numbers), if some existing range of the same author and kind
matches one of the three adjacency cases, then the first such range in map
order is updated — by the first matching case in the priority order
bottom-extend, top-extend, overlap, with exactly the bounds that case
assigns — followed by the full consolidation pass, and no new range is
created (the state does not grow); if no range of that author and kind
matches any case, the candidate is set as a new range. -/
theorem C2_show_merge_policy (st : List Marker) (cs ce : Int) (u k : String)
    (hcs : 1 ≤ cs) (hce : 1 ≤ ce) :
    ((∃ m ∈ st, m.rawUser = u ∧ m.changeType = k ∧
        Marker.mergeCandidateCase m cs ce) →
      ∃ pre ex post, st = pre ++ ex :: post ∧
        ex.rawUser = u ∧ ex.changeType = k ∧
        (∀ m ∈ pre, m.rawUser = u → m.changeType = k →
          ¬ Marker.mergeCandidateCase m cs ce) ∧
        ((ex.endLine + 1 = cs ∧
           Marker.showMarker st cs u k (some ce) =
             Marker.consolidateAllMarkers
               (Marker.updateMarkerRange ex ex.line ce st)) ∨
         (ex.endLine + 1 ≠ cs ∧ ce + 1 = ex.line ∧
           Marker.showMarker st cs u k (some ce) =
             Marker.consolidateAllMarkers
               (Marker.updateMarkerRange ex cs ex.endLine st)) ∨
         (ex.endLine + 1 ≠ cs ∧ ce + 1 ≠ ex.line ∧
           ((cs ≥ ex.line ∧ cs ≤ ex.endLine) ∨
             (ce ≥ ex.line ∧ ce ≤ ex.endLine)) ∧
           Marker.showMarker st cs u k (some ce) =
             Marker.consolidateAllMarkers
               (Marker.updateMarkerRange ex (min ex.line cs)
                 (max ex.endLine ce) st))) ∧
        (Marker.KeysNodup st →
          (Marker.showMarker st cs u k (some ce)).length ≤ st.length)) ∧
    ((∀ m ∈ st, m.rawUser = u → m.changeType = k →
        ¬ Marker.mergeCandidateCase m cs ce) →
      Marker.showMarker st cs u k (some ce) =
        Marker.mapSet ⟨cs, ce, u, k⟩ st) := by
  have hce0 : ce ≠ 0 := by omega
  have hmatch := Marker.showMarker_eq_match st cs ce u k hcs hce0
  constructor
  · rintro ⟨m, hm, hmu, hmk, hmc⟩
    rcases hfm : Marker.findMerge u k cs ce st with _ | ⟨ex, ns, ne⟩
    · exact absurd hmc (Marker.findMerge_none_iff.mp hfm m hm hmu hmk)
    · obtain ⟨pre, post, hst, hpre, hexu, hexk, hcases⟩ :=
        Marker.findMerge_some hfm
      have hexmem : ex ∈ st := by
        rw [hst]
        exact List.mem_append_right _ (List.mem_cons_self _ _)
      have hshow : Marker.showMarker st cs u k (some ce) =
          Marker.consolidateAllMarkers
            (Marker.updateMarkerRange ex ns ne st) := by
        rw [hmatch, hfm]
      have hlen : Marker.KeysNodup st →
          (Marker.showMarker st cs u k (some ce)).length ≤ st.length := by
        intro hnd
        rw [hshow]
        have hnd' : Marker.KeysNodup (Marker.updateMarkerRange ex ns ne st) :=
          Marker.keysNodup_mapSet _ (Marker.keysNodup_mapDelete _ hnd)
        have h1 : (Marker.updateMarkerRange ex ns ne st).length ≤ st.length := by
          unfold Marker.updateMarkerRange
          have h2 := Marker.mapSet_length_le
            (⟨ns, ne, ex.rawUser, ex.changeType⟩ : Marker)
            (Marker.mapDelete ex.line st)
          have h3 : (Marker.mapDelete ex.line st).length + 1 = st.length :=
            Marker.mapDelete_length ⟨ex, hexmem, rfl⟩
          omega
        exact Nat.le_trans (Marker.consolidateAllMarkers_length hnd') h1
      refine ⟨pre, ex, post, hst, hexu, hexk, hpre, ?_, hlen⟩
      rcases hcases with ⟨h1, h2, h3⟩ | ⟨h1, h2, h3, h4⟩ | ⟨h1, h2, h3, h4, h5⟩
      · refine Or.inl ⟨h1, ?_⟩
        rw [hshow, h2, h3]
      · refine Or.inr (Or.inl ⟨h1, h2, ?_⟩)
        rw [hshow, h3, h4]
      · refine Or.inr (Or.inr ⟨h1, h2, h3, ?_⟩)
        rw [hshow, h4, h5]
  · intro hnone
    rw [hmatch, Marker.findMerge_none_iff.mpr hnone]

/-- Claim C2 witness: with no existing marker at all, the candidate becomes a
new range. -/
theorem C2_show_merge_policy_witness :
    Marker.showMarker [] 3 "u" "k" (some 4) =
      Marker.mapSet ⟨3, 4, "u", "k"⟩ [] :=
  (C2_show_merge_policy [] 3 4 "u" "k" (by decide) (by decide)).2 (by decide)

/-- Claim C3: with existing ranges `[1,2]` and `[4,5]` of one author and kind
(in either map order), inserting the single line `3` of the same author and
kind yields exactly the single range `[1,5]`: the insert merge plus the full
consolidation pass reach the adjacency fixed point. -/
theorem C3_bridging (u k : String) :
    Marker.showMarker [⟨1, 2, u, k⟩, ⟨4, 5, u, k⟩] 3 u k none =
      [⟨1, 5, u, k⟩] ∧
    Marker.showMarker [⟨4, 5, u, k⟩, ⟨1, 2, u, k⟩] 3 u k none =
      [⟨1, 5, u, k⟩] := by
  constructor <;>
    simp [Marker.showMarker, Marker.findMerge, Marker.resolveEnd,
      Marker.consolidateAllMarkers, sortByKey, insertByKey, Marker.consLoop,
      Marker.consLoopGo, Marker.updateMarkerRange, Marker.mapSet,
      Marker.mapDelete]

/-- Claim C1 counterexample: two adjacent ranges of the *same author but
different change kinds* (`added` vs `edited`) are merged into a single range
by the full consolidation pass `Marker.consolidateAllMarkers`, which checks
only the author — contradicting the claim that ranges of different change
kinds are never merged by any consolidation step. -/
theorem C1_counterexample :
    ((⟨1, 2, "X", "added"⟩ : Marker).rawUser =
      (⟨3, 4, "X", "edited"⟩ : Marker).rawUser) ∧
    ((⟨1, 2, "X", "added"⟩ : Marker).changeType ≠
      (⟨3, 4, "X", "edited"⟩ : Marker).changeType) ∧
    Marker.consolidateAllMarkers [⟨1, 2, "X", "added"⟩, ⟨3, 4, "X", "edited"⟩] =
      [⟨1, 4, "X", "added"⟩] := by
  decide

/-- Claim C1 (amended): the merge-on-insert in `Marker.show` either sets the
candidate as a new range or merges it with an existing range of the *same
author and same change kind* — never across authors or kinds; and the full
consolidation pass never merges ranges of different authors: it preserves
each author's covered line set exactly (on well-formed unique-key states).
The pass does, however, merge numerically adjacent ranges of the same author
whose change kinds differ. -/
theorem C1_no_cross_author_merge :
    (∀ (st : List Marker) (cs : Int) (u k : String) (e : Option Int), 1 ≤ cs →
      (Marker.showMarker st cs u k e =
        Marker.mapSet ⟨cs, Marker.resolveEnd cs e, u, k⟩ st) ∨
      (∃ ex ∈ st, ex.rawUser = u ∧ ex.changeType = k ∧ ∃ ns ne,
        Marker.showMarker st cs u k e =
          Marker.consolidateAllMarkers (Marker.updateMarkerRange ex ns ne st))) ∧
    (∀ (st : List Marker), Marker.KeysNodup st → Marker.Wf st →
      ∀ w x, Marker.covers (Marker.consolidateAllMarkers st) w x ↔
        Marker.covers st w x) := by
  constructor
  · intro st cs u k e hcs
    have hlt : ¬ cs < 1 := by omega
    rcases hfm : Marker.findMerge u k cs (Marker.resolveEnd cs e) st with
      _ | ⟨ex, ns, ne⟩
    · left
      simp only [Marker.showMarker, if_neg hlt, hfm]
    · right
      obtain ⟨pre, post, hst, _, hexu, hexk, _⟩ := Marker.findMerge_some hfm
      have hexmem : ex ∈ st := by
        rw [hst]
        exact List.mem_append_right _ (List.mem_cons_self _ _)
      refine ⟨ex, hexmem, hexu, hexk, ns, ne, ?_⟩
      simp only [Marker.showMarker, if_neg hlt, hfm]
  · intro st hnd hwf w x
    exact Marker.consolidateAllMarkers_covers hnd hwf w x

/-- Claim C1 witness: the coverage-preservation part applied to a concrete
two-author state, and the insert part applied to a concrete cross-author
candidate. -/
theorem C1_no_cross_author_merge_witness :
    (Marker.covers
        (Marker.consolidateAllMarkers
          [⟨1, 2, "X", "added"⟩, ⟨3, 4, "Y", "added"⟩]) "X" 1 ↔
      Marker.covers [⟨1, 2, "X", "added"⟩, ⟨3, 4, "Y", "added"⟩] "X" 1) :=
  C1_no_cross_author_merge.2 [⟨1, 2, "X", "added"⟩, ⟨3, 4, "Y", "added"⟩]
    (by decide) (by decide) "X" 1

/-! ## mergeCode: claims C5 and C10 -/

theorem splitNlChars_ne_nil (l : List Char) : splitNlChars l ≠ [] := by
  cases l with
  | nil => simp [splitNlChars]
  | cons c cs =>
    by_cases hc : c = '\n'
    · simp [splitNlChars, hc]
    · rcases h : splitNlChars cs with _ | ⟨p, ps⟩
      · simp [splitNlChars, hc, h]
      · simp [splitNlChars, hc, h]

theorem joinNlChars_splitNlChars (l : List Char) :
    joinNlChars (splitNlChars l) = l := by
  induction l with
  | nil => rfl
  | cons c cs ih =>
    by_cases hc : c = '\n'
    · subst hc
      rcases h : splitNlChars cs with _ | ⟨p, ps⟩
      · exact absurd h (splitNlChars_ne_nil cs)
      · simp only [splitNlChars, if_pos rfl, h]
        show joinNlChars ([] :: p :: ps) = '\n' :: cs
        show ([] : List Char) ++ '\n' :: joinNlChars (p :: ps) = '\n' :: cs
        rw [← h, ih]
        rfl
    · rcases h : splitNlChars cs with _ | ⟨p, ps⟩
      · exact absurd h (splitNlChars_ne_nil cs)
      · simp only [splitNlChars, if_neg hc, h]
        cases ps with
        | nil =>
          show c :: p = c :: cs
          have : joinNlChars [p] = cs := by rw [← h, ih]
          rw [← this]
          rfl
        | cons q ps' =>
          show (c :: p) ++ '\n' :: joinNlChars (q :: ps') = c :: cs
          have : joinNlChars (p :: q :: ps') = cs := by rw [← h, ih]
          rw [← this]
          rfl

theorem joinNl_splitNl (s : String) : joinNl (splitNl s) = s := by
  unfold joinNl splitNl
  rw [List.map_map]
  have h1 : (String.data ∘ fun cs => String.mk cs) = id := by
    funext cs
    rfl
  rw [h1, List.map_id, joinNlChars_splitNlChars]

theorem mergeLines_length (t s : List String) :
    (mergeLines t s).length = max t.length s.length := by
  simp [mergeLines]

theorem mergeLines_getD {t s : List String} {i : Nat}
    (h : i < max t.length s.length) :
    (mergeLines t s).getD i "" =
      if i < t.length ∧ i < s.length then
        if t.getD i "" ≠ s.getD i "" then s.getD i "" else t.getD i ""
      else if i < s.length then s.getD i ""
      else t.getD i "" := by
  unfold mergeLines
  rw [List.getD_eq_getElem?_getD, List.getElem?_map, List.getElem?_range h]
  rfl

theorem mergeLines_sourceWins {t s : List String} (h : t.length ≤ s.length) :
    mergeLines t s = s := by
  have hmax : max t.length s.length = s.length := Nat.max_eq_right h
  apply List.ext_getElem?
  intro i
  by_cases hi : i < s.length
  · have hlt : i < max t.length s.length := by omega
    have hgd : (mergeLines t s).getD i "" = s.getD i "" := by
      rw [mergeLines_getD hlt]
      by_cases hti : i < t.length
      · rw [if_pos ⟨hti, hi⟩]
        by_cases hne : t.getD i "" ≠ s.getD i ""
        · rw [if_pos hne]
        · rw [if_neg hne]
          exact Classical.byContradiction fun hc => hne (fun he => hc he)
      · rw [if_neg (fun hand => hti hand.1), if_pos hi]
    have hlen : (mergeLines t s).length = s.length := by
      rw [mergeLines_length, hmax]
    rw [List.getElem?_eq_getElem (by omega), List.getElem?_eq_getElem hi]
    have e1 : (mergeLines t s).getD i "" = (mergeLines t s)[i] :=
      List.getD_eq_getElem (mergeLines t s) "" (by omega)
    have e2 : s.getD i "" = s[i] := List.getD_eq_getElem s "" hi
    rw [e1, e2] at hgd
    rw [hgd]
  · rw [List.getElem?_eq_none (by rw [mergeLines_length, hmax]; omega),
      List.getElem?_eq_none (by omega)]

/-- Claim C5: `mergeCode` splits both buffers on newlines, merges them
positionally — at an index present in both buffers the source's line wins
when the lines differ and the common line is kept when they are equal; at an
index present in only one buffer that buffer's line is kept — and joins the
result, whose length is exactly the longer buffer's line count (no other
lines, order by index). -/
theorem C5_mergeCode_positional (T S : String) :
    mergeCode T S = joinNl (mergeLines (splitNl T) (splitNl S)) ∧
    (mergeLines (splitNl T) (splitNl S)).length =
      max (splitNl T).length (splitNl S).length ∧
    (∀ i : Nat, i < (splitNl T).length → i < (splitNl S).length →
      (mergeLines (splitNl T) (splitNl S)).getD i "" =
        if (splitNl T).getD i "" ≠ (splitNl S).getD i "" then
          (splitNl S).getD i ""
        else (splitNl T).getD i "") ∧
    (∀ i : Nat, (splitNl T).length ≤ i → i < (splitNl S).length →
      (mergeLines (splitNl T) (splitNl S)).getD i "" =
        (splitNl S).getD i "") ∧
    (∀ i : Nat, (splitNl S).length ≤ i → i < (splitNl T).length →
      (mergeLines (splitNl T) (splitNl S)).getD i "" =
        (splitNl T).getD i "") := by
  refine ⟨rfl, mergeLines_length _ _, ?_, ?_, ?_⟩
  · intro i h1 h2
    rw [mergeLines_getD (by omega), if_pos ⟨h1, h2⟩]
  · intro i h1 h2
    rw [mergeLines_getD (by omega), if_neg (fun hand => by omega), if_pos h2]
  · intro i h1 h2
    rw [mergeLines_getD (by omega), if_neg (fun hand => by omega),
      if_neg (by omega)]

/-- Claim C5 witness: a concrete three-line merge where the source buffer is
longer; the index-2 line comes from the source. -/
theorem C5_mergeCode_positional_witness :
    ((2 : Nat) < (splitNl "a\nX\nz").length ∧ (splitNl "a\nb").length ≤ 2) ∧
    (mergeLines (splitNl "a\nb") (splitNl "a\nX\nz")).getD 2 "" =
      (splitNl "a\nX\nz").getD 2 "" :=
  ⟨by decide,
    (C5_mergeCode_positional "a\nb" "a\nX\nz").2.2.2.1 2 (by decide) (by decide)⟩

/-- Claim C10: whenever the source buffer has at least as many lines as the
target, `mergeCode` returns the source buffer exactly. -/
theorem C10_merge_source_wins (T S : String)
    (h : (splitNl T).length ≤ (splitNl S).length) : mergeCode T S = S := by
  unfold mergeCode
  rw [mergeLines_sourceWins h, joinNl_splitNl]

/-- Claim C10 witness. -/
theorem C10_merge_source_wins_witness : mergeCode "x" "a\nb" = "a\nb" :=
  C10_merge_source_wins "x" "a\nb" (by decide)

/-! ## ChangeBlock.split: claim C6 -/

theorem string_append_ne_self {bid t : String} (ht : t.length ≠ 0) :
    bid ++ t ≠ bid := by
  intro he
  have hl := congrArg String.length he
  rw [String.length_append] at hl
  omega

theorem string_append_right_ne {bid t1 t2 : String} (h : t1 ≠ t2) :
    bid ++ t1 ≠ bid ++ t2 := by
  intro he
  apply h
  have hd := congrArg String.data he
  rw [String.data_append, String.data_append] at hd
  have hc := List.append_cancel_left hd
  cases t1
  cases t2
  simp only at hc
  rw [hc]

/-- Claim C6: for a block `[s, e]` present in the block map, `split` at line
`l` fails (returns `null` and leaves the map unchanged) when `l ≤ s` or
`l ≥ e`; otherwise it cuts the content list at relative offset `l - s`,
creates the two blocks `[s, l-1]` and `[l, e]` whose concatenated contents
equal the original block's contents, and discards the original block. -/
theorem C6_split_spec (st : List (String × BlockData)) (blockId : String)
    (l : Int) (bd : BlockData) (hnd : AssocNodup st)
    (hbd : assocGet? blockId st = some bd) :
    ((l ≤ bd.startLine ∨ l ≥ bd.endLine) →
      ChangeBlock.split st blockId l = (none, st)) ∧
    (bd.startLine < l → l < bd.endLine →
      ∃ stOut, ChangeBlock.split st blockId l =
          (some (blockId ++ "-part1", blockId ++ "-part2"), stOut) ∧
        assocGet? (blockId ++ "-part1") stOut =
          some ⟨bd.startLine, l - 1, bd.userName,
            bd.changes.take (l - bd.startLine).toNat, bd.changeType⟩ ∧
        assocGet? (blockId ++ "-part2") stOut =
          some ⟨l, bd.endLine, bd.userName,
            bd.changes.drop (l - bd.startLine).toNat, bd.changeType⟩ ∧
        bd.changes.take (l - bd.startLine).toNat ++
            bd.changes.drop (l - bd.startLine).toNat = bd.changes ∧
        assocGet? blockId stOut = none) := by
  have hne1 : blockId ++ "-part1" ≠ blockId :=
    string_append_ne_self (by decide)
  have hne2 : blockId ++ "-part2" ≠ blockId :=
    string_append_ne_self (by decide)
  have hne12 : blockId ++ "-part1" ≠ blockId ++ "-part2" :=
    string_append_right_ne (by decide)
  constructor
  · intro hfail
    simp only [ChangeBlock.split, hbd]
    rw [if_pos]
    rcases hfail with h | h
    · exact Or.inl h
    · exact Or.inr h
  · intro h1 h2
    have hcond : ¬ (l ≤ bd.startLine ∨ l ≥ bd.endLine) := by
      push_neg
      exact ⟨h1, h2⟩
    simp only [ChangeBlock.split, hbd]
    rw [if_neg hcond]
    refine ⟨_, rfl, ?_, ?_, List.take_append_drop _ _, ?_⟩
    · -- first part block
      unfold ChangeBlock.create ChangeBlock.remove
      rw [assocGet?_delete_ne _ hne1, assocGet?_set_ne _ _ hne12,
        assocGet?_delete_ne _ hne12, assocGet?_set_self]
    · -- second part block
      unfold ChangeBlock.create ChangeBlock.remove
      rw [assocGet?_delete_ne _ hne2, assocGet?_set_self]
    · -- original block discarded
      have hnd1 : AssocNodup
          (ChangeBlock.create st (blockId ++ "-part1") bd.startLine (l - 1)
            bd.userName (bd.changes.take (l - bd.startLine).toNat)
            bd.changeType) := by
        unfold ChangeBlock.create ChangeBlock.remove
        exact assocNodup_set _ _ (assocNodup_delete _ hnd)
      have hnd2 : AssocNodup
          (ChangeBlock.create
            (ChangeBlock.create st (blockId ++ "-part1") bd.startLine (l - 1)
              bd.userName (bd.changes.take (l - bd.startLine).toNat)
              bd.changeType)
            (blockId ++ "-part2") l bd.endLine bd.userName
            (bd.changes.drop (l - bd.startLine).toNat) bd.changeType) := by
        unfold ChangeBlock.create ChangeBlock.remove
        exact assocNodup_set _ _ (assocNodup_delete _ hnd1)
      exact assocGet?_delete_self _ hnd2

/-- Claim C6 witness: splitting a concrete block `[3,7]` at its start line 3
fails, and splitting it at line 5 yields the two blocks `[3,4]` and `[5,7]`
with the original contents partitioned and the original block gone. -/
theorem C6_split_spec_witness :
    ChangeBlock.split
        [("b", ⟨3, 7, "X", ["a", "b", "c", "d", "e"], "added"⟩)] "b" 3 =
      (none, [("b", ⟨3, 7, "X", ["a", "b", "c", "d", "e"], "added"⟩)]) ∧
    ∃ stOut,
      ChangeBlock.split
          [("b", ⟨3, 7, "X", ["a", "b", "c", "d", "e"], "added"⟩)] "b" 5 =
        (some ("b" ++ "-part1", "b" ++ "-part2"), stOut) ∧
      assocGet? ("b" ++ "-part1") stOut =
        some ⟨3, 5 - 1, "X",
          (["a", "b", "c", "d", "e"] : List String).take ((5 : Int) - 3).toNat,
          "added"⟩ ∧
      assocGet? ("b" ++ "-part2") stOut =
        some ⟨5, 7, "X",
          (["a", "b", "c", "d", "e"] : List String).drop ((5 : Int) - 3).toNat,
          "added"⟩ ∧
      (["a", "b", "c", "d", "e"] : List String).take ((5 : Int) - 3).toNat ++
          (["a", "b", "c", "d", "e"] : List String).drop ((5 : Int) - 3).toNat =
        ["a", "b", "c", "d", "e"] ∧
      assocGet? "b" stOut = none :=
  ⟨(C6_split_spec [("b", ⟨3, 7, "X", ["a", "b", "c", "d", "e"], "added"⟩)]
      "b" 3 ⟨3, 7, "X", ["a", "b", "c", "d", "e"], "added"⟩ (by decide)
      (by decide)).1 (by decide),
    (C6_split_spec [("b", ⟨3, 7, "X", ["a", "b", "c", "d", "e"], "added"⟩)]
      "b" 5 ⟨3, 7, "X", ["a", "b", "c", "d", "e"], "added"⟩ (by decide)
      (by decide)).2 (by decide) (by decide)⟩

/-! ## createChangeBlocks: claim C7 -/

theorem foldKindAcc_edited (ks : List String) :
    foldKindAcc "edited" ks = "edited" := by
  induction ks with
  | nil => rfl
  | cons k ks ih =>
    show foldKindAcc (if "edited" ≠ k then "edited" else "edited") ks = "edited"
    rw [ite_self]
    exact ih

theorem foldKindAcc_eq (ks : List String) :
    ∀ a : String, foldKindAcc a ks =
      if ks.all (fun s => s = a) then a else "edited" := by
  induction ks with
  | nil => intro a; simp [foldKindAcc]
  | cons k ks ih =>
    intro a
    show foldKindAcc (if a ≠ k then "edited" else a) ks = _
    by_cases hak : a = k
    · rw [if_neg (fun hne => hne hak), ih a]
      have : (k :: ks).all (fun s => s = a) = ks.all (fun s => s = a) := by
        simp [List.all_cons, hak.symm]
      rw [this]
    · rw [if_pos hak, foldKindAcc_edited]
      have : (k :: ks).all (fun s => s = a) = false := by
        simp [List.all_cons]
        intro hka
        exact absurd hka.symm hak
      rw [this]
      simp

theorem getLastD_map {α β : Type} (f : α → β) (t : List α) :
    ∀ d : α, (t.map f).getLastD (f d) = f (t.getLastD d) := by
  induction t with
  | nil => intro d; rfl
  | cons c cs ih =>
    intro d
    rw [List.map_cons, List.getLastD_cons, List.getLastD_cons]
    exact ih c

theorem foldl_extendBlock (t : List ChangeData) :
    ∀ cb : UncommittedBlock,
      t.foldl extendBlock cb =
        ⟨cb.blockId, cb.startLine,
          (t.map (fun c => c.lineNumber)).getLastD cb.endLine,
          cb.changes ++ t.map (fun c => c.lineContent),
          foldKindAcc cb.changeType (t.map (fun c => c.changeType))⟩ := by
  induction t with
  | nil =>
    intro cb
    obtain ⟨bid, sl, el, ch, ct⟩ := cb
    simp [foldKindAcc]
  | cons c cs ih =>
    intro cb
    rw [List.foldl_cons, ih (extendBlock cb c)]
    have h1 : (extendBlock cb c).blockId = cb.blockId := rfl
    have h2 : (extendBlock cb c).startLine = cb.startLine := rfl
    have h3 : (extendBlock cb c).endLine = c.lineNumber := rfl
    have h4 : (extendBlock cb c).changes = cb.changes ++ [c.lineContent] := rfl
    have h5 : (extendBlock cb c).changeType =
        if cb.changeType ≠ c.changeType then "edited" else cb.changeType := rfl
    rw [h1, h2, h3, h4, h5]
    rw [List.map_cons, List.map_cons, List.map_cons, List.getLastD_cons,
      List.append_assoc]
    rfl

theorem specBlock_nil (u : String) (now : Int) (idx : Nat) (h : ChangeData) :
    specBlock u now idx h [] = newBlock u now idx h := by
  simp [specBlock, newBlock, runChangeKind]

theorem specBlock_eq_foldl (u : String) (now : Int) (idx : Nat)
    (h : ChangeData) (t : List ChangeData) :
    specBlock u now idx h t = t.foldl extendBlock (newBlock u now idx h) := by
  rw [foldl_extendBlock]
  have h1 : (newBlock u now idx h).blockId = blockIdFor u now idx := rfl
  have h2 : (newBlock u now idx h).startLine = h.lineNumber := rfl
  have h3 : (newBlock u now idx h).endLine = h.lineNumber := rfl
  have h4 : (newBlock u now idx h).changes = [h.lineContent] := rfl
  have h5 : (newBlock u now idx h).changeType = h.changeType := rfl
  rw [h1, h2, h3, h4, h5]
  unfold specBlock
  have he : (t.map (fun c => c.lineNumber)).getLastD h.lineNumber =
      (t.getLastD h).lineNumber := getLastD_map (fun c => c.lineNumber) t h
  rw [he]
  have hk : runChangeKind h t =
      foldKindAcc h.changeType (t.map (fun c => c.changeType)) := by
    rw [foldKindAcc_eq]
    unfold runChangeKind
    simp [List.all_map, Function.comp]
  rw [hk]
  rfl

theorem chunkRuns_nil_iff (l : List ChangeData) :
    chunkRuns l = [] ↔ l = [] := by
  cases l with
  | nil => simp [chunkRuns]
  | cons f rest =>
    simp only [chunkRuns]
    rcases h : chunkRuns rest with _ | ⟨⟨g, gs⟩, rs⟩
    · simp
    · by_cases hg : g.lineNumber = f.lineNumber + 1
      · simp [hg]
      · simp [hg]

theorem consumeBlocks_spec (u : String) (now : Int) (cs : List ChangeData) :
    ∀ (cb : UncommittedBlock) (idx : Nat),
      consumeBlocks u now cb idx cs =
        chunkStep u now cb (idx + 1) (chunkRuns cs) := by
  induction cs with
  | nil => intro cb idx; rfl
  | cons c cs' ih =>
    intro cb idx
    show (if c.lineNumber = cb.endLine + 1 then
        consumeBlocks u now (extendBlock cb c) idx cs'
      else cb :: consumeBlocks u now (newBlock u now (idx + 1) c) (idx + 1) cs') = _
    rcases h : chunkRuns cs' with _ | ⟨⟨g, gs⟩, rs⟩
    · have hcs' : cs' = [] := (chunkRuns_nil_iff cs').mp h
      subst hcs'
      have hch : chunkRuns [c] = [(c, [])] := rfl
      rw [hch]
      by_cases hc : c.lineNumber = cb.endLine + 1
      · rw [if_pos hc]
        show [extendBlock cb c] = chunkStep u now cb (idx + 1) [(c, [])]
        show [extendBlock cb c] =
          (if c.lineNumber = cb.endLine + 1 then
            (([c] : List ChangeData).foldl extendBlock cb) ::
              buildChunkBlocks u now (idx + 1) []
          else cb :: buildChunkBlocks u now (idx + 1) [(c, [])])
        rw [if_pos hc]
        rfl
      · rw [if_neg hc]
        show cb :: [newBlock u now (idx + 1) c] =
          chunkStep u now cb (idx + 1) [(c, [])]
        show cb :: [newBlock u now (idx + 1) c] =
          (if c.lineNumber = cb.endLine + 1 then
            (([c] : List ChangeData).foldl extendBlock cb) ::
              buildChunkBlocks u now (idx + 1) []
          else cb :: buildChunkBlocks u now (idx + 1) [(c, [])])
        rw [if_neg hc]
        show cb :: [newBlock u now (idx + 1) c] =
          cb :: [specBlock u now (idx + 1) c []]
        rw [specBlock_nil]
    · have hch : chunkRuns (c :: cs') =
          if g.lineNumber = c.lineNumber + 1 then (c, g :: gs) :: rs
          else (c, []) :: (g, gs) :: rs := by
        simp only [chunkRuns, h]
      rw [hch]
      have hext : (extendBlock cb c).endLine = c.lineNumber := rfl
      have hnew : (newBlock u now (idx + 1) c).endLine = c.lineNumber := rfl
      by_cases hc : c.lineNumber = cb.endLine + 1
      · rw [if_pos hc, ih (extendBlock cb c) idx, h]
        show chunkStep u now (extendBlock cb c) (idx + 1) ((g, gs) :: rs) = _
        show (if g.lineNumber = (extendBlock cb c).endLine + 1 then
            ((g :: gs).foldl extendBlock (extendBlock cb c)) ::
              buildChunkBlocks u now (idx + 1) rs
          else (extendBlock cb c) ::
            buildChunkBlocks u now (idx + 1) ((g, gs) :: rs)) = _
        rw [hext]
        by_cases hg : g.lineNumber = c.lineNumber + 1
        · rw [if_pos hg, if_pos hg]
          show ((g :: gs).foldl extendBlock (extendBlock cb c)) ::
              buildChunkBlocks u now (idx + 1) rs =
            chunkStep u now cb (idx + 1) ((c, g :: gs) :: rs)
          show _ = (if c.lineNumber = cb.endLine + 1 then
              ((c :: g :: gs).foldl extendBlock cb) ::
                buildChunkBlocks u now (idx + 1) rs
            else cb :: buildChunkBlocks u now (idx + 1) ((c, g :: gs) :: rs))
          rw [if_pos hc]
          rfl
        · rw [if_neg hg, if_neg hg]
          show (extendBlock cb c) ::
              buildChunkBlocks u now (idx + 1) ((g, gs) :: rs) =
            chunkStep u now cb (idx + 1) ((c, []) :: (g, gs) :: rs)
          show _ = (if c.lineNumber = cb.endLine + 1 then
              (([c] : List ChangeData).foldl extendBlock cb) ::
                buildChunkBlocks u now (idx + 1) ((g, gs) :: rs)
            else cb :: buildChunkBlocks u now (idx + 1)
              ((c, []) :: (g, gs) :: rs))
          rw [if_pos hc]
          rfl
      · rw [if_neg hc, ih (newBlock u now (idx + 1) c) (idx + 1), h]
        show cb :: chunkStep u now (newBlock u now (idx + 1) c) (idx + 2)
            ((g, gs) :: rs) = _
        show cb :: (if g.lineNumber = (newBlock u now (idx + 1) c).endLine + 1 then
            ((g :: gs).foldl extendBlock (newBlock u now (idx + 1) c)) ::
              buildChunkBlocks u now (idx + 2) rs
          else (newBlock u now (idx + 1) c) ::
            buildChunkBlocks u now (idx + 2) ((g, gs) :: rs)) = _
        rw [hnew]
        by_cases hg : g.lineNumber = c.lineNumber + 1
        · rw [if_pos hg, if_pos hg]
          show cb :: ((g :: gs).foldl extendBlock (newBlock u now (idx + 1) c)) ::
              buildChunkBlocks u now (idx + 2) rs =
            chunkStep u now cb (idx + 1) ((c, g :: gs) :: rs)
          show _ = (if c.lineNumber = cb.endLine + 1 then
              ((c :: g :: gs).foldl extendBlock cb) ::
                buildChunkBlocks u now (idx + 1) rs
            else cb :: buildChunkBlocks u now (idx + 1) ((c, g :: gs) :: rs))
          rw [if_neg hc]
          show _ = cb :: specBlock u now (idx + 1) c (g :: gs) ::
            buildChunkBlocks u now (idx + 2) rs
          rw [specBlock_eq_foldl]
        · rw [if_neg hg, if_neg hg]
          show cb :: (newBlock u now (idx + 1) c) ::
              buildChunkBlocks u now (idx + 2) ((g, gs) :: rs) =
            chunkStep u now cb (idx + 1) ((c, []) :: (g, gs) :: rs)
          show _ = (if c.lineNumber = cb.endLine + 1 then
              (([c] : List ChangeData).foldl extendBlock cb) ::
                buildChunkBlocks u now (idx + 1) ((g, gs) :: rs)
            else cb :: buildChunkBlocks u now (idx + 1)
              ((c, []) :: (g, gs) :: rs))
          rw [if_neg hc]
          show _ = cb :: specBlock u now (idx + 1) c [] ::
            buildChunkBlocks u now (idx + 2) ((g, gs) :: rs)
          rw [specBlock_nil]

theorem ccb_fold_consume (u : String) (now : Int) (l : List ChangeData) :
    ∀ (blocks : List UncommittedBlock) (cb : UncommittedBlock),
      ∃ blocksOut c,
        l.foldl (ccbStep u now) (blocks, some cb) = (blocksOut, some c) ∧
        blocksOut ++ [c] =
          blocks ++ consumeBlocks u now cb blocks.length l := by
  induction l with
  | nil =>
    intro blocks cb
    exact ⟨blocks, cb, rfl, rfl⟩
  | cons c cs ih =>
    intro blocks cb
    by_cases hc : c.lineNumber = cb.endLine + 1
    · have hstep : ccbStep u now (blocks, some cb) c =
          (blocks, some (extendBlock cb c)) := by
        show (match some cb with
          | none => (blocks, some (newBlock u now blocks.length c))
          | some cb' =>
            if c.lineNumber = cb'.endLine + 1 then
              (blocks, some (extendBlock cb' c))
            else
              (blocks ++ [cb'], some (newBlock u now (blocks.length + 1) c))) = _
        rw [show (match some cb with
          | none => (blocks, some (newBlock u now blocks.length c))
          | some cb' =>
            if c.lineNumber = cb'.endLine + 1 then
              (blocks, some (extendBlock cb' c))
            else
              (blocks ++ [cb'], some (newBlock u now (blocks.length + 1) c))) =
          (if c.lineNumber = cb.endLine + 1 then
            (blocks, some (extendBlock cb c))
          else (blocks ++ [cb], some (newBlock u now (blocks.length + 1) c)))
          from rfl]
        rw [if_pos hc]
      obtain ⟨bo, cO, hfold, heq⟩ := ih blocks (extendBlock cb c)
      refine ⟨bo, cO, ?_, ?_⟩
      · rw [List.foldl_cons, hstep]
        exact hfold
      · rw [heq]
        show _ = blocks ++ consumeBlocks u now cb blocks.length (c :: cs)
        show blocks ++ consumeBlocks u now (extendBlock cb c) blocks.length cs =
          blocks ++ (if c.lineNumber = cb.endLine + 1 then
            consumeBlocks u now (extendBlock cb c) blocks.length cs
          else cb :: consumeBlocks u now (newBlock u now (blocks.length + 1) c)
            (blocks.length + 1) cs)
        rw [if_pos hc]
    · have hstep : ccbStep u now (blocks, some cb) c =
          (blocks ++ [cb], some (newBlock u now (blocks.length + 1) c)) := by
        show (match some cb with
          | none => (blocks, some (newBlock u now blocks.length c))
          | some cb' =>
            if c.lineNumber = cb'.endLine + 1 then
              (blocks, some (extendBlock cb' c))
            else
              (blocks ++ [cb'], some (newBlock u now (blocks.length + 1) c))) = _
        rw [show (match some cb with
          | none => (blocks, some (newBlock u now blocks.length c))
          | some cb' =>
            if c.lineNumber = cb'.endLine + 1 then
              (blocks, some (extendBlock cb' c))
            else
              (blocks ++ [cb'], some (newBlock u now (blocks.length + 1) c))) =
          (if c.lineNumber = cb.endLine + 1 then
            (blocks, some (extendBlock cb c))
          else (blocks ++ [cb], some (newBlock u now (blocks.length + 1) c)))
          from rfl]
        rw [if_neg hc]
      obtain ⟨bo, cO, hfold, heq⟩ := ih (blocks ++ [cb])
        (newBlock u now (blocks.length + 1) c)
      refine ⟨bo, cO, ?_, ?_⟩
      · rw [List.foldl_cons, hstep]
        exact hfold
      · rw [heq]
        have hlen : (blocks ++ [cb]).length = blocks.length + 1 := by simp
        rw [hlen]
        show (blocks ++ [cb]) ++
            consumeBlocks u now (newBlock u now (blocks.length + 1) c)
              (blocks.length + 1) cs =
          blocks ++ consumeBlocks u now cb blocks.length (c :: cs)
        show _ = blocks ++ (if c.lineNumber = cb.endLine + 1 then
            consumeBlocks u now (extendBlock cb c) blocks.length cs
          else cb :: consumeBlocks u now (newBlock u now (blocks.length + 1) c)
            (blocks.length + 1) cs)
        rw [if_neg hc]
        simp

/-- Claim C7: `createChangeBlocks` equals the specification's
`groupIntoBlocks` description — sort the facts by line number, fold each fact
whose line is exactly one more than the current block's end into that block,
start a new block at any other gap, and give a block whose run mixes change
kinds the kind `edited` (a uniform run keeps its kind). -/
theorem C7_createChangeBlocks_spec (changes : List ChangeData) (u : String)
    (now : Int) :
    createChangeBlocks changes u now = createChangeBlocksSpec changes u now := by
  unfold createChangeBlocks createChangeBlocksSpec
  by_cases h0 : changes.length = 0
  · rw [if_pos h0]
    have hnil : changes = [] := List.length_eq_zero.mp h0
    subst hnil
    rfl
  · rw [if_neg h0]
    rcases hs : sortByKey (fun c => c.lineNumber) changes with _ | ⟨c0, rest⟩
    · exfalso
      have hle := sortByKey_length (fun c => c.lineNumber) changes
      rw [hs] at hle
      simp only [List.length_nil] at hle
      exact h0 hle.symm
    · simp only [hs]
      have hstep0 : ccbStep u now ([], none) c0 =
          ([], some (newBlock u now 0 c0)) := rfl
      obtain ⟨bo, cO, hfold, heq⟩ :=
        ccb_fold_consume u now rest [] (newBlock u now 0 c0)
      rw [List.foldl_cons, hstep0, hfold]
      show bo ++ [cO] = buildChunkBlocks u now 0 (chunkRuns (c0 :: rest))
      simp only [List.length_nil, List.nil_append] at heq
      rw [heq, consumeBlocks_spec]
      rcases h : chunkRuns rest with _ | ⟨⟨g, gs⟩, rs⟩
      · have hrest : rest = [] := (chunkRuns_nil_iff rest).mp h
        subst hrest
        have hch : chunkRuns [c0] = [(c0, [])] := rfl
        rw [hch]
        show [newBlock u now 0 c0] = [specBlock u now 0 c0 []]
        rw [specBlock_nil]
      · have hch : chunkRuns (c0 :: rest) =
            if g.lineNumber = c0.lineNumber + 1 then (c0, g :: gs) :: rs
            else (c0, []) :: (g, gs) :: rs := by
          simp only [chunkRuns, h]
        rw [hch]
        show (if g.lineNumber = (newBlock u now 0 c0).endLine + 1 then
            ((g :: gs).foldl extendBlock (newBlock u now 0 c0)) ::
              buildChunkBlocks u now 1 rs
          else (newBlock u now 0 c0) ::
            buildChunkBlocks u now 1 ((g, gs) :: rs)) = _
        have hnew : (newBlock u now 0 c0).endLine = c0.lineNumber := rfl
        rw [hnew]
        by_cases hg : g.lineNumber = c0.lineNumber + 1
        · rw [if_pos hg, if_pos hg]
          show ((g :: gs).foldl extendBlock (newBlock u now 0 c0)) ::
              buildChunkBlocks u now 1 rs =
            specBlock u now 0 c0 (g :: gs) :: buildChunkBlocks u now 1 rs
          rw [specBlock_eq_foldl]
        · rw [if_neg hg, if_neg hg]
          show (newBlock u now 0 c0) ::
              buildChunkBlocks u now 1 ((g, gs) :: rs) =
            specBlock u now 0 c0 [] :: buildChunkBlocks u now 1 ((g, gs) :: rs)
          rw [specBlock_nil]

/-! ## adjustByContent: claim C8 -/

theorem applyUpdate_cons_ne {k : String} {v : BlockData}
    {s : List (String × BlockData)} {u : String × Int × Int} (h : u.1 ≠ k) :
    ChangeBlock.applyUpdate ((k, v) :: s) u =
      (match assocGet? u.1 s with
       | none => (k, v) :: s
       | some bd =>
         (k, v) :: assocSet u.1
           { bd with startLine := u.2.1, endLine := u.2.2 } s) := by
  unfold ChangeBlock.applyUpdate
  have hkk : ¬ k = u.1 := Ne.symm h
  rw [show assocGet? u.1 ((k, v) :: s) = assocGet? u.1 s by
    simp [assocGet?, hkk]]
  rcases hget : assocGet? u.1 s with _ | bd
  · rfl
  · simp [assocSet, hkk]

theorem foldl_applyUpdate_cons {ups : List (String × Int × Int)} {k : String}
    {v : BlockData} {s : List (String × BlockData)}
    (h : ∀ u ∈ ups, u.1 ≠ k) :
    ups.foldl ChangeBlock.applyUpdate ((k, v) :: s) =
      (k, v) :: ups.foldl ChangeBlock.applyUpdate s := by
  induction ups generalizing s with
  | nil => rfl
  | cons u us ih =>
    have hu := h u (List.mem_cons_self u us)
    have hrest := fun q hq => h q (List.mem_cons_of_mem u hq)
    rw [List.foldl_cons, List.foldl_cons]
    rcases hget : assocGet? u.1 s with _ | bd
    · have hL : ChangeBlock.applyUpdate ((k, v) :: s) u = (k, v) :: s := by
        rw [applyUpdate_cons_ne hu, hget]
      have hR : ChangeBlock.applyUpdate s u = s := by
        unfold ChangeBlock.applyUpdate
        rw [hget]
      rw [hL, hR]
      exact ih hrest
    · have hL : ChangeBlock.applyUpdate ((k, v) :: s) u =
          (k, v) ::
            assocSet u.1 { bd with startLine := u.2.1, endLine := u.2.2 } s := by
        rw [applyUpdate_cons_ne hu, hget]
      have hR : ChangeBlock.applyUpdate s u =
          assocSet u.1 { bd with startLine := u.2.1, endLine := u.2.2 } s := by
        unfold ChangeBlock.applyUpdate
        rw [hget]
      rw [hL, hR]
      exact ih hrest

theorem reanchorKeys {newLines : List String}
    {st : List (String × BlockData)} {u : String × Int × Int}
    (h : u ∈ st.filterMap (fun p =>
      match ChangeBlock.reanchorUpdate newLines p.2 with
      | some w => some (p.1, w)
      | none => none)) :
    ∃ p ∈ st, u.1 = p.1 := by
  rcases List.mem_filterMap.mp h with ⟨p, hp, hF⟩
  rcases hre : ChangeBlock.reanchorUpdate newLines p.2 with _ | w
  · rw [hre] at hF
    exact absurd hF (by simp)
  · rw [hre] at hF
    refine ⟨p, hp, ?_⟩
    have heq : (p.1, w) = u := by
      simpa using hF
    rw [← heq]

theorem adjust_blocks_aux (newLines : List String) :
    ∀ (st : List (String × BlockData)), AssocNodup st →
      (st.filterMap (fun p =>
        match ChangeBlock.reanchorUpdate newLines p.2 with
        | some u => some (p.1, u)
        | none => none)).foldl ChangeBlock.applyUpdate st =
        st.map (fun p => (p.1, ChangeBlock.applyReanchor newLines p.2)) := by
  intro st
  induction st with
  | nil => intro _; rfl
  | cons p rest ih =>
    intro hnd
    rcases List.pairwise_cons.mp hnd with ⟨hhead, htail⟩
    have hkeys : ∀ u ∈ rest.filterMap (fun p =>
        match ChangeBlock.reanchorUpdate newLines p.2 with
        | some w => some (p.1, w)
        | none => none), u.1 ≠ p.1 := by
      intro u hu
      rcases reanchorKeys hu with ⟨q, hq, hq1⟩
      rw [hq1]
      exact Ne.symm (hhead q hq)
    have hp : p = (p.1, p.2) := rfl
    rcases hre : ChangeBlock.reanchorUpdate newLines p.2 with _ | w
    · simp only [List.filterMap_cons, hre]
      have happ : ChangeBlock.applyReanchor newLines p.2 = p.2 := by
        unfold ChangeBlock.applyReanchor
        rw [hre]
      rw [List.map_cons, happ]
      rw [hp, foldl_applyUpdate_cons hkeys, ← hp]
      rw [ih htail]
    · simp only [List.filterMap_cons, hre]
      rw [List.foldl_cons]
      have hstep : ChangeBlock.applyUpdate (p :: rest) (p.1, w) =
          (p.1, { p.2 with startLine := w.1, endLine := w.2 }) :: rest := by
        unfold ChangeBlock.applyUpdate
        rw [show assocGet? (p.1, w).1 (p :: rest) = some p.2 by
          rw [hp]; simp [assocGet?]]
        rw [hp]
        simp [assocSet]
      rw [hstep, foldl_applyUpdate_cons hkeys]
      have happ : ChangeBlock.applyReanchor newLines p.2 =
          { p.2 with startLine := w.1, endLine := w.2 } := by
        unfold ChangeBlock.applyReanchor
        rw [hre]
      rw [List.map_cons, happ]
      rw [ih htail]

theorem moveOf_eq_map (oldLines newLines : List String) (k : GutterKey)
    (v w : Nat) :
    GutterIcons.moveOf oldLines newLines (k, w) =
      (GutterIcons.moveOf oldLines newLines (k, v)).map
        (fun u => (u.1, u.2.1, w)) := by
  rcases k with n | s
  · simp only [GutterIcons.moveOf]
    by_cases h1 : n ≤ (oldLines.length : Int)
    · simp only [if_pos h1]
      rcases hg : jsGet? oldLines (n - 1) with _ | c
      · rfl
      · simp only [hg]
        by_cases h2 : jsFindIndexEq c newLines ≠ -1
        · simp only [if_pos h2]
          by_cases h3 : jsFindIndexEq c newLines + 1 ≠ n
          · simp only [if_pos h3]; rfl
          · simp only [if_neg h3]; rfl
        · simp only [if_neg h2]; rfl
    · simp only [if_neg h1]; rfl
  · rfl

theorem moveOf_some_key {oldLines newLines : List String}
    {p : GutterKey × Nat} {u : Int × Int × Nat}
    (h : GutterIcons.moveOf oldLines newLines p = some u) :
    p.1 = Sum.inl u.1 := by
  rcases p with ⟨k, v⟩
  rcases k with n | s
  · show Sum.inl n = Sum.inl u.1
    simp only [GutterIcons.moveOf] at h
    by_cases h1 : n ≤ (oldLines.length : Int)
    · simp only [if_pos h1] at h
      rcases hg : jsGet? oldLines (n - 1) with _ | c
      · rw [hg] at h
        exact Option.noConfusion h
      · simp only [hg] at h
        by_cases h2 : jsFindIndexEq c newLines ≠ -1
        · simp only [if_pos h2] at h
          by_cases h3 : jsFindIndexEq c newLines + 1 ≠ n
          · simp only [if_pos h3] at h
            injection h with h4
            rw [← h4]
          · simp only [if_neg h3] at h
            exact Option.noConfusion h
        · simp only [if_neg h2] at h
          exact Option.noConfusion h
    · simp only [if_neg h1] at h
      exact Option.noConfusion h
  · exact Option.noConfusion h

theorem filterMap_none_nil {α β : Type} {f : α → Option β} :
    ∀ {l : List α}, (∀ a ∈ l, f a = none) → l.filterMap f = [] := by
  intro l
  induction l with
  | nil => intro _; rfl
  | cons a rest ih =>
    intro h
    rw [List.filterMap_cons, h a (List.mem_cons_self a rest)]
    exact ih (fun b hb => h b (List.mem_cons_of_mem a hb))

theorem assocGet?_isSome_of_mem {κ α : Type} [DecidableEq κ]
    {p : κ × α} : ∀ {l : List (κ × α)}, p ∈ l →
      ∃ v, assocGet? p.1 l = some v := by
  intro l
  induction l with
  | nil => intro h; exact absurd h (List.not_mem_nil p)
  | cons q rest ih =>
    intro h
    by_cases hq : q.1 = p.1
    · exact ⟨q.2, by simp [assocGet?, hq]⟩
    · rcases List.mem_cons.mp h with h1 | h1
      · exact absurd (congrArg Prod.fst h1.symm) hq
      · rcases ih h1 with ⟨v, hv⟩
        refine ⟨v, ?_⟩
        simp only [assocGet?, if_neg hq]
        exact hv

theorem gutterFold_isSome (k : GutterKey) :
    ∀ (ms : List (Int × Int × Nat)) (m : List (GutterKey × Nat)),
      (∀ u ∈ ms, (Sum.inl u.1 : GutterKey) ≠ k) →
      (∃ v, assocGet? k m = some v) →
      ∃ v, assocGet? k (ms.foldl (fun m u =>
        assocSet (Sum.inl u.2.1) u.2.2 (assocDelete (Sum.inl u.1) m)) m) =
          some v := by
  intro ms
  induction ms with
  | nil => intro m _ h; exact h
  | cons u us ih =>
    intro m hne hsome
    rw [List.foldl_cons]
    apply ih _ (fun q hq => hne q (List.mem_cons_of_mem u hq))
    by_cases hk : (Sum.inl u.2.1 : GutterKey) = k
    · refine ⟨u.2.2, ?_⟩
      rw [← hk]
      exact assocGet?_set_self _ _ _
    · rcases hsome with ⟨v, hv⟩
      refine ⟨v, ?_⟩
      rw [assocGet?_set_ne _ _ (Ne.symm hk),
        assocGet?_delete_ne _ (Ne.symm (hne u (List.mem_cons_self u us)))]
      exact hv

theorem gutterFold_get_away (k : GutterKey) :
    ∀ (ms : List (Int × Int × Nat)) (m : List (GutterKey × Nat)),
      (∀ w ∈ ms,
        (Sum.inl w.1 : GutterKey) ≠ k ∧ (Sum.inl w.2.1 : GutterKey) ≠ k) →
      assocGet? k (ms.foldl (fun m w =>
        assocSet (Sum.inl w.2.1) w.2.2 (assocDelete (Sum.inl w.1) m)) m) =
        assocGet? k m := by
  intro ms
  induction ms with
  | nil => intro m _; rfl
  | cons w ws ih =>
    intro m h
    rw [List.foldl_cons, ih _ (fun q hq => h q (List.mem_cons_of_mem w hq))]
    rcases h w (List.mem_cons_self w ws) with ⟨h1, h2⟩
    rw [assocGet?_set_ne _ _ (Ne.symm h2), assocGet?_delete_ne _ (Ne.symm h1)]

/-- Claim C8 counterexample: `Marker.adjustByContent` leaves the marker state
untouched even though the marker's old line content now first-matches at a
different index — markers are never re-anchored by content, contradicting the
claim that every annotation component is. -/
theorem C8_counterexample :
    jsFindIndexEq "a" ["x", "a"] = 1 ∧
    Marker.adjustByContent [⟨1, 1, "X", "edited"⟩] ["a", "b"] ["x", "a"] =
      [⟨1, 1, "X", "edited"⟩] := by
  decide

/-- Claim C8 (amended): markers are not re-anchored at all — their
`adjustByContent` only refreshes pixel positions and leaves the marker state
unchanged; change blocks are re-anchored by the first exact match of their
recorded first line in the new line sequence, every block being updated in
place and never deleted; gutter icons are re-anchored by the first exact
match of the *old buffer's* line at the icon's numeric position, the
collected moves being applied in map order as a `delete` of the old key
followed by a `set` of the new key: when no icon moves the icon map is
unchanged, the key of a non-moving icon is never deleted, and a moving icon
lands at its target carrying its element whenever no later move starts from
or lands on that target line — but because a `set` can land on another
icon's key, a non-moving icon's element can be overwritten (evicted) by an
icon re-anchoring onto its line, as in the closing two-icon instance where
the unmatched icon `10` at line 1 is replaced by the icon `20` moving up
from line 2. -/
theorem C8_adjustByContent_amended :
    (∀ (st : List Marker) (oldLines newLines : List String),
      Marker.adjustByContent st oldLines newLines = st) ∧
    (∀ (st : List (String × BlockData)) (oldLines newLines : List String),
      AssocNodup st →
      ChangeBlock.adjustByContent st oldLines newLines =
        st.map (fun p => (p.1, ChangeBlock.applyReanchor newLines p.2))) ∧
    (∀ (icons : List (GutterKey × Nat)) (oldLines newLines : List String),
      ((∀ p ∈ icons, GutterIcons.moveOf oldLines newLines p = none) →
        GutterIcons.adjustByContent icons oldLines newLines = icons) ∧
      (∀ p ∈ icons, GutterIcons.moveOf oldLines newLines p = none →
        ∃ v, assocGet? p.1
          (GutterIcons.adjustByContent icons oldLines newLines) = some v) ∧
      (∀ (pre post : List (Int × Int × Nat)) (u : Int × Int × Nat),
        icons.filterMap (GutterIcons.moveOf oldLines newLines) =
          pre ++ u :: post →
        (∀ w ∈ post, w.1 ≠ u.2.1 ∧ w.2.1 ≠ u.2.1) →
        assocGet? (Sum.inl u.2.1 : GutterKey)
          (GutterIcons.adjustByContent icons oldLines newLines) =
            some u.2.2)) ∧
    GutterIcons.adjustByContent [(Sum.inl 1, 10), (Sum.inl 2, 20)]
        ["x", "y"] ["y", "y"] = [(Sum.inl 1, 20)] := by
  refine ⟨fun _ _ _ => rfl, ?_, ?_, by decide⟩
  · intro st oldLines newLines hnd
    show (st.filterMap (fun p =>
      match ChangeBlock.reanchorUpdate newLines p.2 with
      | some u => some (p.1, u)
      | none => none)).foldl ChangeBlock.applyUpdate st =
        st.map (fun p => (p.1, ChangeBlock.applyReanchor newLines p.2))
    exact adjust_blocks_aux newLines st hnd
  · intro icons oldLines newLines
    refine ⟨?_, ?_, ?_⟩
    · intro h
      show (icons.filterMap (GutterIcons.moveOf oldLines newLines)).foldl
        (fun m u => assocSet (Sum.inl u.2.1) u.2.2
          (assocDelete (Sum.inl u.1) m)) icons = icons
      rw [filterMap_none_nil h]
      rfl
    · intro p hp hstat
      show ∃ v, assocGet? p.1
        ((icons.filterMap (GutterIcons.moveOf oldLines newLines)).foldl
          (fun m u => assocSet (Sum.inl u.2.1) u.2.2
            (assocDelete (Sum.inl u.1) m)) icons) = some v
      apply gutterFold_isSome
      · intro u hu hcontra
        rcases List.mem_filterMap.mp hu with ⟨q, hq, hqu⟩
        rcases p with ⟨pk, pv⟩
        rcases q with ⟨qk, qv⟩
        have hkey : qk = Sum.inl u.1 := moveOf_some_key hqu
        have hcontra' : (Sum.inl u.1 : GutterKey) = pk := hcontra
        have hqp : qk = pk := by rw [hkey, hcontra']
        have h2 := moveOf_eq_map oldLines newLines qk qv pv
        rw [hqu] at h2
        rw [← hqp] at hstat
        rw [hstat] at h2
        exact Option.noConfusion h2
      · exact assocGet?_isSome_of_mem hp
    · intro pre post u hsplit hpost
      show assocGet? (Sum.inl u.2.1 : GutterKey)
        ((icons.filterMap (GutterIcons.moveOf oldLines newLines)).foldl
          (fun m w => assocSet (Sum.inl w.2.1) w.2.2
            (assocDelete (Sum.inl w.1) m)) icons) = some u.2.2
      rw [hsplit, List.foldl_append, List.foldl_cons]
      rw [gutterFold_get_away (Sum.inl u.2.1 : GutterKey) post _
        (fun w hw =>
          ⟨fun hc => (hpost w hw).1 (Sum.inl.inj hc),
           fun hc => (hpost w hw).2 (Sum.inl.inj hc)⟩)]
      exact assocGet?_set_self _ _ _

/-- Claim C8 witness: the amended theorem applied at concrete states — a
block re-anchored to the first match of its recorded first line; a two-icon
map left unchanged when no icon moves; the unmatched icon of the eviction
instance whose key (though not its element) survives; and a lone moving icon
landing at its first-match target. -/
theorem C8_adjustByContent_amended_witness :
    ChangeBlock.adjustByContent
        [("b", ⟨1, 2, "X", ["p", "q"], "added"⟩)] ["p", "q"] ["z", "p", "q"] =
      ([("b", ⟨1, 2, "X", ["p", "q"], "added"⟩)] :
          List (String × BlockData)).map
        (fun p => (p.1, ChangeBlock.applyReanchor ["z", "p", "q"] p.2)) ∧
    GutterIcons.adjustByContent [(Sum.inl 1, 10), (Sum.inl 2, 20)]
        ["a", "b"] ["a", "b"] = [(Sum.inl 1, 10), (Sum.inl 2, 20)] ∧
    (∃ v, assocGet? (Sum.inl 1 : GutterKey)
        (GutterIcons.adjustByContent [(Sum.inl 1, 10), (Sum.inl 2, 20)]
          ["x", "y"] ["y", "y"]) = some v) ∧
    assocGet? (Sum.inl 1 : GutterKey)
        (GutterIcons.adjustByContent [(Sum.inl 2, 20)] ["x", "y"] ["y", "y"])
      = some 20 :=
  ⟨C8_adjustByContent_amended.2.1 [("b", ⟨1, 2, "X", ["p", "q"], "added"⟩)]
      ["p", "q"] ["z", "p", "q"] (by decide),
   (C8_adjustByContent_amended.2.2.1 [(Sum.inl 1, 10), (Sum.inl 2, 20)]
      ["a", "b"] ["a", "b"]).1
     (by intro p hp; fin_cases hp <;> decide),
   (C8_adjustByContent_amended.2.2.1 [(Sum.inl 1, 10), (Sum.inl 2, 20)]
      ["x", "y"] ["y", "y"]).2.1 (Sum.inl 1, 10) (List.mem_cons_self _ _)
     (by decide),
   (C8_adjustByContent_amended.2.2.1 [(Sum.inl 2, 20)]
      ["x", "y"] ["y", "y"]).2.2 [] [] (2, 1, 20) (by decide)
     (fun w hw => absurd hw (List.not_mem_nil w))⟩

/-! ## Burst detection: claim C4 -/

theorem collectRunGo_length_le (l : List Event) :
    ∀ prev, (collectRunGo prev l).length ≤ l.length := by
  induction l with
  | nil => intro prev; simp [collectRunGo]
  | cons e rest ih =>
    intro prev
    by_cases he : e.line = prev.line + 1
    · simp only [collectRunGo, if_pos he, List.length_cons]
      exact Nat.succ_le_succ (ih e)
    · simp only [collectRunGo, if_neg he, List.length_nil]
      omega

theorem collectRun_length_le (l : List Event) :
    (collectRun l).length ≤ l.length := by
  cases l with
  | nil => simp [collectRun]
  | cons e rest =>
    simp only [collectRun, List.length_cons]
    exact Nat.succ_le_succ (collectRunGo_length_le rest e)

theorem collectRunGo_lines (l : List Event) :
    ∀ prev, (collectRunGo prev l).map Event.line =
      (List.range (collectRunGo prev l).length).map
        (fun i : Nat => prev.line + (i : Int) + 1) := by
  induction l with
  | nil => intro prev; rfl
  | cons e rest ih =>
    intro prev
    by_cases he : e.line = prev.line + 1
    · simp only [collectRunGo, if_pos he, List.map_cons, List.length_cons]
      rw [List.range_succ_eq_map, List.map_cons, List.map_map, ih e]
      refine List.cons_eq_cons.mpr ⟨by omega, ?_⟩
      apply List.map_congr_left
      intro i _
      simp only [Function.comp_apply]
      push_cast
      omega
    · simp only [collectRunGo, if_neg he]
      rfl

theorem collectRun_lines (e : Event) (rest : List Event) :
    (collectRun (e :: rest)).map Event.line =
      (List.range (collectRun (e :: rest)).length).map
        (fun i : Nat => e.line + (i : Int)) := by
  simp only [collectRun, List.map_cons, List.length_cons]
  rw [List.range_succ_eq_map, List.map_cons, List.map_map,
    collectRunGo_lines rest e]
  refine List.cons_eq_cons.mpr ⟨by omega, ?_⟩
  apply List.map_congr_left
  intro i _
  simp only [Function.comp_apply]
  push_cast
  omega

theorem collectRun_last (e : Event) (rest : List Event) :
    runEndLine e.line (collectRun (e :: rest)) =
      e.line + (collectRun (e :: rest)).length - 1 := by
  have hlines := collectRun_lines e rest
  rcases hn : (collectRun (e :: rest)).length with _ | m
  · exact absurd hn (by simp [collectRun])
  · have hlast : ((collectRun (e :: rest)).map Event.line).getLast? =
        some (e.line + (m : Int)) := by
      rw [hlines, hn, List.range_succ, List.map_append]
      simp
    rw [List.getLast?_map] at hlast
    unfold runEndLine
    rcases hgl : (collectRun (e :: rest)).getLast? with _ | lastEv
    · rw [hgl] at hlast
      exact absurd hlast (by simp)
    · rw [hgl] at hlast
      simp only [Option.map_some'] at hlast
      have hx : lastEv.line = e.line + (m : Int) := by
        injection hlast
      show lastEv.line = e.line + ((m + 1 : Nat) : Int) - 1
      rw [hx]
      push_cast
      omega

theorem collectRun_covers (e : Event) (rest : List Event) (x : Int)
    (h1 : e.line ≤ x)
    (h2 : x ≤ e.line + (collectRun (e :: rest)).length - 1) :
    ∃ ev ∈ collectRun (e :: rest), ev.line = x := by
  have hlines := collectRun_lines e rest
  have hx : x ∈ (collectRun (e :: rest)).map Event.line := by
    rw [hlines]
    refine List.mem_map.mpr ⟨(x - e.line).toNat, ?_, by omega⟩
    refine List.mem_range.mpr ?_
    omega
  rcases List.mem_map.mp hx with ⟨ev, hev, hevx⟩
  exact ⟨ev, hev, hevx⟩

theorem collectRun_lines_nodup (e : Event) (rest : List Event) :
    ((collectRun (e :: rest)).map Event.line).Nodup := by
  rw [collectRun_lines e rest]
  refine List.Nodup.map ?_ (List.nodup_range _)
  intro i j hij
  simp only at hij
  omega

theorem fold_changes_get_away (mk : Event → ChangeData) (run : List Event) :
    ∀ (ch : List (Int × ChangeData)) (k : Int), (∀ e ∈ run, e.line ≠ k) →
      assocGet? k
        (run.foldl (fun ch e => assocSet e.line (mk e) ch) ch) =
      assocGet? k ch := by
  induction run with
  | nil => intro ch k _; rfl
  | cons e rest ih =>
    intro ch k h
    rw [List.foldl_cons,
      ih (assocSet e.line (mk e) ch) k
        (fun q hq => h q (List.mem_cons_of_mem e hq)),
      assocGet?_set_ne _ _ (Ne.symm (h e (List.mem_cons_self e rest)))]

theorem fold_changes_get (mk : Event → ChangeData) (run : List Event) :
    ∀ (ch : List (Int × ChangeData)) (ev : Event), ev ∈ run →
      (run.map Event.line).Nodup →
      assocGet? ev.line
        (run.foldl (fun ch e => assocSet e.line (mk e) ch) ch) =
      some (mk ev) := by
  induction run with
  | nil => intro ch ev hev _; exact absurd hev (List.not_mem_nil ev)
  | cons e rest ih =>
    intro ch ev hev hnd
    rw [List.map_cons, List.nodup_cons] at hnd
    rcases List.mem_cons.mp hev with h | h
    · subst h
      rw [List.foldl_cons,
        fold_changes_get_away mk rest (assocSet ev.line (mk ev) ch) ev.line
          (fun q hq hq1 => hnd.1 (by rw [← hq1]; exact List.mem_map_of_mem _ hq)),
        assocGet?_set_self]
    · rw [List.foldl_cons]
      exact ih (assocSet e.line (mk e) ch) ev h hnd.2

/-- Claim C4 (amended): for `detectRangeEdit`, after appending the triggering
event and pruning the window to the trailing 500ms, a maximal consecutive run
of length at least 2 is always reported as one range event `(rs, rs+len-1)`
with every covered line receiving its own `edited` fact and the window
cleared, and otherwise the call reports a single-line result with the pruned
window retained and the facts untouched; for `detectRangeInsertion` the range
event additionally requires the insertion to fall between existing baseline
lines (`baseline` non-empty, triggering line within the baseline, run start
at most one past the baseline length) — when the run is long enough but that
gate fails (for example lines appended at the end of the buffer), the call
still reports a single-line result and retains the window. -/
theorem C4_burst_detection (cl : Int) (content baseline : String) (plc : Int)
    (w : List Event) (u : String) (ms : List Marker)
    (ch : List (Int × ChangeData)) (rv : List (Int × Reservation)) (now : Int)
    (recent run : List Event) (bl : List String) (rs : Int)
    (hrecent : recent =
      pruneWindow (w ++ [⟨cl, jsGetD (splitNl content) (cl - 1), now⟩]) now)
    (hrun : run = collectRun (sortByKey (fun e => e.line) recent))
    (hbl : bl = if baseline = "" then [] else splitNl baseline)
    (hrs : rs = headLine (sortByKey (fun e => e.line) recent)) :
    ((2 ≤ run.length →
      (detectRangeEdit cl content baseline plc w u ms ch rv now).rangeResult =
          some (rs, rs + run.length - 1) ∧
        (detectRangeEdit cl content baseline plc w u ms ch rv now).recent = [] ∧
        rs < rs + run.length - 1 ∧
        (∀ x : Int, rs ≤ x → x ≤ rs + run.length - 1 →
          ∃ ev, ev ∈ run ∧ ev.line = x ∧
            assocGet? x
              (detectRangeEdit cl content baseline plc w u ms ch rv now).changes =
              some ⟨"edited", u, x, ev.content, ev.timestamp⟩)) ∧
     (run.length < 2 →
      (detectRangeEdit cl content baseline plc w u ms ch rv now).rangeResult =
          none ∧
        (detectRangeEdit cl content baseline plc w u ms ch rv now).recent =
          recent ∧
        (detectRangeEdit cl content baseline plc w u ms ch rv now).changes = ch ∧
        (detectRangeEdit cl content baseline plc w u ms ch rv now).reservations =
          rv ∧
        (detectRangeEdit cl content baseline plc w u ms ch rv now).markers = ms)) ∧
    ((2 ≤ run.length ∧ baseline ≠ "" ∧ 0 < bl.length ∧
        cl ≤ (bl.length : Int) ∧ rs ≤ (bl.length : Int) + 1 →
      (detectRangeInsertion cl content baseline plc w u ms ch rv now).rangeResult =
          some (rs, rs + run.length - 1) ∧
        (detectRangeInsertion cl content baseline plc w u ms ch rv now).recent =
          [] ∧
        (∀ x : Int, rs ≤ x → x ≤ rs + run.length - 1 →
          ∃ ev, ev ∈ run ∧ ev.line = x ∧
            assocGet? x
              (detectRangeInsertion cl content baseline plc w u ms ch rv
                now).changes =
              some ⟨"added", u, x, ev.content, ev.timestamp⟩)) ∧
     (¬(2 ≤ run.length ∧ baseline ≠ "" ∧ 0 < bl.length ∧
        cl ≤ (bl.length : Int) ∧ rs ≤ (bl.length : Int) + 1) →
      (detectRangeInsertion cl content baseline plc w u ms ch rv
          now).rangeResult = none ∧
        (detectRangeInsertion cl content baseline plc w u ms ch rv now).recent =
          recent ∧
        (detectRangeInsertion cl content baseline plc w u ms ch rv now).changes =
          ch ∧
        (detectRangeInsertion cl content baseline plc w u ms ch rv
          now).reservations = rv ∧
        (detectRangeInsertion cl content baseline plc w u ms ch rv now).markers =
          ms)) := by
  have hrunrec : run.length ≤ recent.length := by
    rw [hrun]
    calc (collectRun (sortByKey (fun e => e.line) recent)).length
        ≤ (sortByKey (fun e => e.line) recent).length :=
          collectRun_length_le _
      _ = recent.length := sortByKey_length _ _
  constructor
  · constructor
    · -- edit, range case
      intro h2
      have hr1 : 1 < recent.length := by omega
      rcases hs : sortByKey (fun e => e.line) recent with _ | ⟨e, srest⟩
      · exfalso
        have := sortByKey_length (fun e => e.line) recent
        rw [hs] at this
        simp at this
        omega
      have hrun' : run = collectRun (e :: srest) := by rw [hrun, hs]
      have hrs' : rs = e.line := by rw [hrs, hs]; rfl
      have hre : runEndLine e.line run = e.line + run.length - 1 := by
        rw [hrun']
        exact collectRun_last e srest
      have hnd : (run.map Event.line).Nodup := by
        rw [hrun']
        exact collectRun_lines_nodup e srest
      have hcall : detectRangeEdit cl content baseline plc w u ms ch rv now =
          ⟨some (e.line, e.line + run.length - 1), [],
            run.foldl (fun ch ev =>
              assocSet ev.line ⟨"edited", u, ev.line, ev.content, ev.timestamp⟩
                ch) ch,
            reserveLines e.line (e.line + run.length - 1) u now rv,
            Marker.showMarker
              ((intRange e.line (e.line + run.length - 1)).foldl
                (fun ms l => Marker.mapDelete l ms) ms)
              e.line u "edited" (some (e.line + run.length - 1))⟩ := by
        simp only [detectRangeEdit]
        rw [← hrecent, hs]
        simp only [headLine]
        rw [← hrun', hre, if_pos hr1, if_pos ⟨h2, by omega⟩]
      refine ⟨?_, ?_, by omega, ?_⟩
      · rw [hcall, hrs']
      · rw [hcall]
      · intro x hx1 hx2
        rw [hrs'] at hx1 hx2
        have hcov : ∃ ev ∈ collectRun (e :: srest), ev.line = x := by
          refine collectRun_covers e srest x hx1 ?_
          rw [← hrun']
          omega
        rw [← hrun'] at hcov
        rcases hcov with ⟨ev, hev, hevx⟩
        refine ⟨ev, hev, hevx, ?_⟩
        rw [hcall]
        show assocGet? x (run.foldl (fun ch ev =>
          assocSet ev.line ⟨"edited", u, ev.line, ev.content, ev.timestamp⟩ ch)
          ch) = _
        rw [← hevx]
        rw [fold_changes_get
          (fun ev => ⟨"edited", u, ev.line, ev.content, ev.timestamp⟩)
          run ch ev hev hnd]
    · -- edit, single-line case
      intro h2
      by_cases hr1 : 1 < recent.length
      · rcases hs : sortByKey (fun e => e.line) recent with _ | ⟨e, srest⟩
        · exfalso
          have := sortByKey_length (fun e => e.line) recent
          rw [hs] at this
          simp at this
          omega
        have hrun' : run = collectRun (e :: srest) := by rw [hrun, hs]
        have hre : runEndLine e.line run = e.line + run.length - 1 := by
          rw [hrun']
          exact collectRun_last e srest
        have hcall : detectRangeEdit cl content baseline plc w u ms ch rv now =
            ⟨none, recent, ch, rv, ms⟩ := by
          simp only [detectRangeEdit]
          rw [← hrecent, hs]
          simp only [headLine]
          rw [← hrun', hre, if_pos hr1, if_neg (fun hand => by omega)]
        rw [hcall]
        exact ⟨rfl, rfl, rfl, rfl, rfl⟩
      · have hcall : detectRangeEdit cl content baseline plc w u ms ch rv now =
            ⟨none, recent, ch, rv, ms⟩ := by
          simp only [detectRangeEdit]
          rw [← hrecent, if_neg hr1]
        rw [hcall]
        exact ⟨rfl, rfl, rfl, rfl, rfl⟩
  · constructor
    · -- insertion, range case
      rintro ⟨h2, hb1, hb2, hb3, hb4⟩
      have hr1 : 1 < recent.length := by omega
      rcases hs : sortByKey (fun e => e.line) recent with _ | ⟨e, srest⟩
      · exfalso
        have := sortByKey_length (fun e => e.line) recent
        rw [hs] at this
        simp at this
        omega
      have hrun' : run = collectRun (e :: srest) := by rw [hrun, hs]
      have hrs' : rs = e.line := by rw [hrs, hs]; rfl
      have hre : runEndLine e.line run = e.line + run.length - 1 := by
        rw [hrun']
        exact collectRun_last e srest
      have hnd : (run.map Event.line).Nodup := by
        rw [hrun']
        exact collectRun_lines_nodup e srest
      rw [hrs'] at hb4
      have hcall : detectRangeInsertion cl content baseline plc w u ms ch rv
          now =
          ⟨some (e.line, e.line + run.length - 1), [],
            run.foldl (fun ch ev =>
              assocSet ev.line ⟨"added", u, ev.line, ev.content, ev.timestamp⟩
                ch) ch,
            reserveLines e.line (e.line + run.length - 1) u now rv,
            Marker.showMarker ms e.line u "added"
              (some (e.line + run.length - 1))⟩ := by
        simp only [detectRangeInsertion]
        rw [← hrecent, ← hbl, hs]
        simp only [headLine]
        rw [← hrun', hre, if_pos hr1, if_pos ⟨h2, by omega⟩,
          if_pos ⟨⟨hb1, hb2, hb3⟩, hb4⟩]
      refine ⟨?_, ?_, ?_⟩
      · rw [hcall, hrs']
      · rw [hcall]
      · intro x hx1 hx2
        rw [hrs'] at hx1 hx2
        have hcov : ∃ ev ∈ collectRun (e :: srest), ev.line = x := by
          refine collectRun_covers e srest x hx1 ?_
          rw [← hrun']
          omega
        rw [← hrun'] at hcov
        rcases hcov with ⟨ev, hev, hevx⟩
        refine ⟨ev, hev, hevx, ?_⟩
        rw [hcall]
        show assocGet? x (run.foldl (fun ch ev =>
          assocSet ev.line ⟨"added", u, ev.line, ev.content, ev.timestamp⟩ ch)
          ch) = _
        rw [← hevx]
        rw [fold_changes_get
          (fun ev => ⟨"added", u, ev.line, ev.content, ev.timestamp⟩)
          run ch ev hev hnd]
    · -- insertion, single-line case
      intro hgate
      by_cases hr1 : 1 < recent.length
      · rcases hs : sortByKey (fun e => e.line) recent with _ | ⟨e, srest⟩
        · exfalso
          have := sortByKey_length (fun e => e.line) recent
          rw [hs] at this
          simp at this
          omega
        have hrun' : run = collectRun (e :: srest) := by rw [hrun, hs]
        have hrs' : rs = e.line := by rw [hrs, hs]; rfl
        have hre : runEndLine e.line run = e.line + run.length - 1 := by
          rw [hrun']
          exact collectRun_last e srest
        by_cases h2 : 2 ≤ run.length
        · have hgate' : ¬((baseline ≠ "" ∧ 0 < bl.length ∧
              cl ≤ (bl.length : Int)) ∧ e.line ≤ (bl.length : Int) + 1) := by
            intro hand
            exact hgate ⟨h2, hand.1.1, hand.1.2.1, hand.1.2.2, by
              rw [hrs']; exact hand.2⟩
          have hcall : detectRangeInsertion cl content baseline plc w u ms ch
              rv now = ⟨none, recent, ch, rv, ms⟩ := by
            simp only [detectRangeInsertion]
            rw [← hrecent, ← hbl, hs]
            simp only [headLine]
            rw [← hrun', hre, if_pos hr1, if_pos ⟨h2, by omega⟩,
              if_neg hgate']
          rw [hcall]
          exact ⟨rfl, rfl, rfl, rfl, rfl⟩
        · have hcall : detectRangeInsertion cl content baseline plc w u ms ch
              rv now = ⟨none, recent, ch, rv, ms⟩ := by
            simp only [detectRangeInsertion]
            rw [← hrecent, ← hbl, hs]
            simp only [headLine]
            rw [← hrun', hre, if_pos hr1, if_neg (fun hand => by omega)]
          rw [hcall]
          exact ⟨rfl, rfl, rfl, rfl, rfl⟩
      · have hcall : detectRangeInsertion cl content baseline plc w u ms ch rv
            now = ⟨none, recent, ch, rv, ms⟩ := by
          simp only [detectRangeInsertion]
          rw [← hrecent, ← hbl, if_neg hr1]
        rw [hcall]
        exact ⟨rfl, rfl, rfl, rfl, rfl⟩

/-- Claim C4 counterexample: two single-line insertions on lines 1 and 2
within 200ms form a maximal consecutive run of length 2, yet
`detectRangeInsertion` reports a single-line result and retains the window,
because the empty baseline fails the `isInsertionBetween` gate — the claim's
unconditional "run length ≥ 2 ⇒ range event, window cleared" is false for the
insertion detector. -/
theorem C4_counterexample :
    (collectRun (sortByKey (fun e => e.line)
      (pruneWindow ([⟨1, "a", 1000⟩] ++
        [⟨2, jsGetD (splitNl "a\nb") (2 - 1), 1200⟩]) 1200))).length = 2 ∧
    (detectRangeInsertion 2 "a\nb" "" 0 [⟨1, "a", 1000⟩] "U" [] [] []
      1200).rangeResult = none ∧
    (detectRangeInsertion 2 "a\nb" "" 0 [⟨1, "a", 1000⟩] "U" [] [] []
      1200).recent = [⟨1, "a", 1000⟩, ⟨2, "b", 1200⟩] := by
  decide

/-- Claim C4 witness: two edits on lines 5 and 6 within 200ms are reported by
`detectRangeEdit` as the single range `[5,6]` with the window cleared, via
the amended theorem. -/
theorem C4_burst_detection_witness :
    (2 : Nat) ≤ ([⟨5, "w", 1000⟩, ⟨6, "e", 1200⟩] : List Event).length ∧
    ((detectRangeEdit 6 "x\ny\nz\nq\nw\ne" "" 0 [⟨5, "w", 1000⟩] "U" [] [] []
        1200).rangeResult =
      some (5, 5 +
        (([⟨5, "w", 1000⟩, ⟨6, "e", 1200⟩] : List Event).length : Int) - 1) ∧
    (detectRangeEdit 6 "x\ny\nz\nq\nw\ne" "" 0 [⟨5, "w", 1000⟩] "U" [] [] []
        1200).recent = [] ∧
    (5 : Int) < 5 +
      (([⟨5, "w", 1000⟩, ⟨6, "e", 1200⟩] : List Event).length : Int) - 1 ∧
    (∀ x : Int, 5 ≤ x →
      x ≤ 5 + (([⟨5, "w", 1000⟩, ⟨6, "e", 1200⟩] : List Event).length : Int) - 1 →
      ∃ ev, ev ∈ ([⟨5, "w", 1000⟩, ⟨6, "e", 1200⟩] : List Event) ∧
        ev.line = x ∧
        assocGet? x
          (detectRangeEdit 6 "x\ny\nz\nq\nw\ne" "" 0 [⟨5, "w", 1000⟩] "U" []
            [] [] 1200).changes =
          some ⟨"edited", "U", x, ev.content, ev.timestamp⟩)) :=
  ⟨by decide,
    (C4_burst_detection 6 "x\ny\nz\nq\nw\ne" "" 0 [⟨5, "w", 1000⟩] "U" [] []
      [] 1200 [⟨5, "w", 1000⟩, ⟨6, "e", 1200⟩]
      [⟨5, "w", 1000⟩, ⟨6, "e", 1200⟩] [] 5 (by decide) (by decide)
      (by decide) (by decide)).1.1 (by decide)⟩
